import Mathlib

set_option maxHeartbeats 1000000

/-!
Verification of the transactional job queue in `queue.ts`
(`initQueueDb`, `addJobToQueue`, `getNextJob`, `completeJob`, `failJob`).

The queue stores rows in a SQLite table

  CREATE TABLE IF NOT EXISTS jobs (
    id TEXT PRIMARY KEY,
    params TEXT NOT NULL,
    status TEXT NOT NULL DEFAULT 'queued',
    createdAt DATETIME DEFAULT CURRENT_TIMESTAMP,
    processedAt DATETIME,
    error TEXT
  );

We embed the table as a list of rows in rowid (insertion) order, the JSON
serialization used for `params` (`JSON.stringify` / `JSON.parse`) as an
executable model with a verified round trip, and each exported function as
a state-passing Lean function.  SQLite statement failures (in particular
`SQLITE_BUSY` on `BEGIN IMMEDIATE` under write contention) are modelled by
an explicit failure-injection parameter that mirrors which `await` inside
`getNextJob`'s `try` block rejects.
-/

/-! ### Model of the JavaScript JSON value space

`params` travels through `JSON.stringify` at enqueue time and `JSON.parse`
at claim time.  We model JSON values with integer numerals and strings
whose escaping covers the two characters `JSON.stringify` must escape to
stay injective (the quote and the backslash); the parser accepts exactly
the whitespace-free output format of the serializer, plus rejects
non-JSON text, which is all the queue code exercises. -/

inductive Json where
  | null : Json
  | bool (flag : Bool) : Json
  | num (value : Int) : Json
  | str (text : String) : Json
  | arr (items : List Json) : Json
  | obj (fields : List (String × Json)) : Json

/-- The double-quote character delimiting JSON strings. -/
def quoteChar : Char := '\"'

/-- The escape character inside JSON strings. -/
def backslashChar : Char := '\\'

/-- The opening brace of a JSON object. -/
def lbr : Char := Char.ofNat 123

/-- The closing brace of a JSON object. -/
def rbr : Char := Char.ofNat 125

/-- Decimal digit test, as in the JSON number grammar. -/
def isDig (c : Char) : Bool := decide ('0' ≤ c) && decide (c ≤ '9')

/-- The character for a decimal digit value (values `≥ 9` clamp to `'9'`;
only `0`–`9` are ever used). -/
def digChar : Nat → Char
  | 0 => '0'
  | 1 => '1'
  | 2 => '2'
  | 3 => '3'
  | 4 => '4'
  | 5 => '5'
  | 6 => '6'
  | 7 => '7'
  | 8 => '8'
  | _ => '9'

/-- The numeric value of a decimal digit character. -/
def digVal (c : Char) : Nat := c.toNat - 48

/-- Decimal digits of `n` (most significant first), by repeated division;
the first argument is fuel, `n` itself is always enough. -/
def natDigsAux : Nat → Nat → List Char
  | 0, _ => []
  | fuel + 1, n => if n = 0 then [] else natDigsAux fuel (n / 10) ++ [digChar (n % 10)]

/-- Decimal notation for a natural number, as `JSON.stringify` prints it. -/
def printNat (n : Nat) : List Char :=
  if n = 0 then ['0'] else natDigsAux n n

/-- Decimal notation for an integer, as `JSON.stringify` prints it. -/
def printInt (n : Int) : List Char :=
  if n < 0 then '-' :: printNat n.natAbs else printNat n.natAbs

/-- String-body escaping done by `JSON.stringify`: quote and backslash get
a backslash prefix, every other character is emitted as itself. -/
def escC : List Char → List Char
  | [] => []
  | c :: cs =>
    if c = quoteChar || c = backslashChar then backslashChar :: c :: escC cs
    else c :: escC cs

mutual

/-- `JSON.stringify` on the model, producing the character list of the
(whitespace-free) serialization. -/
def strC : Json → List Char
  | .null => 'n' :: 'u' :: ['l', 'l']
  | .bool true => 't' :: 'r' :: ['u', 'e']
  | .bool false => 'f' :: 'a' :: ['l', 's', 'e']
  | .num n => printInt n
  | .str s => quoteChar :: (escC s.data ++ [quoteChar])
  | .arr [] => ['[', ']']
  | .arr (x :: xs) => '[' :: (strElems x xs ++ [']'])
  | .obj [] => [lbr, rbr]
  | .obj (m :: ms) => lbr :: (strMembs m ms ++ [rbr])
termination_by j => sizeOf j

/-- Comma-separated serialization of a nonempty array body. -/
def strElems : Json → List Json → List Char
  | x, [] => strC x
  | x, y :: ys => strC x ++ ',' :: strElems y ys
termination_by x xs => sizeOf x + sizeOf xs

/-- Serialization of one object member: `"key":value`. -/
def strMemb : String × Json → List Char
  | (k, v) => quoteChar :: (escC k.data ++ quoteChar :: ':' :: strC v)
termination_by m => sizeOf m

/-- Comma-separated serialization of a nonempty object body. -/
def strMembs : String × Json → List (String × Json) → List Char
  | m, [] => strMemb m
  | m, m2 :: ms => strMemb m ++ ',' :: strMembs m2 ms
termination_by m ms => sizeOf m + sizeOf ms

end

/-- The `JSON.stringify` side of the model, as a `String`. -/
def jsonStringify (j : Json) : String := String.mk (strC j)

/-- Parse the body of a JSON string after the opening quote, undoing
`escC`; returns the decoded characters and the input after the closing
quote. -/
def parseStrBody : List Char → Option (List Char × List Char)
  | [] => none
  | c :: cs =>
    if c = backslashChar then
      match cs with
      | [] => none
      | d :: cs2 => (parseStrBody cs2).map (fun p => (d :: p.1, p.2))
    else if c = quoteChar then some ([], cs)
    else (parseStrBody cs).map (fun p => (c :: p.1, p.2))

/-- Split a maximal run of decimal digits off the front of the input. -/
def takeDigs : List Char → List Char × List Char
  | [] => ([], [])
  | c :: cs =>
    if isDig c then
      let p := takeDigs cs
      (c :: p.1, p.2)
    else ([], c :: cs)

/-- Horner evaluation of digit characters, accumulator first. -/
def valOfDigs (a : Nat) (l : List Char) : Nat :=
  l.foldl (fun a c => 10 * a + digVal c) a

/-- Parse a nonempty run of decimal digits as a natural number. -/
def parseNat (cs : List Char) : Option (Nat × List Char) :=
  let p := takeDigs cs
  if p.1.isEmpty then none else some (valOfDigs 0 p.1, p.2)

mutual

/-- Recursive-descent parser for one JSON value (fuel-indexed; fuel one
more than the input length always suffices for serializer output). -/
def parseVal : Nat → List Char → Option (Json × List Char)
  | 0, _ => none
  | _ + 1, [] => none
  | f + 1, c :: cs =>
    if c = 'n' then
      match cs with
      | 'u' :: 'l' :: 'l' :: rest => some (.null, rest)
      | _ => none
    else if c = 't' then
      match cs with
      | 'r' :: 'u' :: 'e' :: rest => some (.bool true, rest)
      | _ => none
    else if c = 'f' then
      match cs with
      | 'a' :: 'l' :: 's' :: 'e' :: rest => some (.bool false, rest)
      | _ => none
    else if c = quoteChar then
      (parseStrBody cs).map (fun p => (.str (String.mk p.1), p.2))
    else if c = '-' then
      match parseNat cs with
      | some (n, rest) => some (.num (-(n : Int)), rest)
      | none => none
    else if isDig c then
      match parseNat (c :: cs) with
      | some (n, rest) => some (.num (n : Int), rest)
      | none => none
    else if c = '[' then
      match cs with
      | [] => none
      | d :: cs2 =>
        if d = ']' then some (.arr [], cs2)
        else (parseElemsJ f (d :: cs2)).map (fun p => (.arr p.1, p.2))
    else if c = lbr then
      match cs with
      | [] => none
      | d :: cs2 =>
        if d = rbr then some (.obj [], cs2)
        else (parseMembsJ f (d :: cs2)).map (fun p => (.obj p.1, p.2))
    else none

/-- Parser for a nonempty array body up to and including `]`. -/
def parseElemsJ : Nat → List Char → Option (List Json × List Char)
  | 0, _ => none
  | f + 1, cs =>
    match parseVal f cs with
    | none => none
    | some (j, rest) =>
      match rest with
      | [] => none
      | d :: rest2 =>
        if d = ',' then (parseElemsJ f rest2).map (fun p => (j :: p.1, p.2))
        else if d = ']' then some ([j], rest2)
        else none

/-- Parser for a nonempty object body up to and including the closing
brace. -/
def parseMembsJ : Nat → List Char → Option (List (String × Json) × List Char)
  | 0, _ => none
  | f + 1, cs =>
    match cs with
    | [] => none
    | c :: cs1 =>
      if c = quoteChar then
        match parseStrBody cs1 with
        | none => none
        | some (k, rest) =>
          match rest with
          | ':' :: rest2 =>
            match parseVal f rest2 with
            | none => none
            | some (v, rest3) =>
              match rest3 with
              | [] => none
              | d :: rest4 =>
                if d = ',' then
                  (parseMembsJ f rest4).map (fun p => ((String.mk k, v) :: p.1, p.2))
                else if d = rbr then some ([(String.mk k, v)], rest4)
                else none
          | _ => none
      else none

end

/-- The `JSON.parse` side of the model: succeeds exactly when the whole
input is one JSON value. -/
def jsonParse (s : String) : Option Json :=
  match parseVal (s.data.length + 1) s.data with
  | some (j, []) => some j
  | _ => none

/-! ### Round trip of the JSON serialization -/

/-- After a serialized value, the input may continue only with a
non-digit (so that greedy number parsing stops in the right place). -/
def restOk : List Char → Bool
  | [] => true
  | c :: _ => !isDig c

/-- Characters that can start the serialization of a JSON value. -/
def goodStart (c : Char) : Bool :=
  c = 'n' || c = 't' || c = 'f' || c = quoteChar || c = '-' || isDig c || c = '[' || c = lbr

theorem isDig_ne_special {c : Char} (h : isDig c = true) :
    c ≠ ']' ∧ c ≠ rbr ∧ c ≠ ',' ∧ c ≠ ':' ∧ c ≠ quoteChar ∧ c ≠ 'n' ∧ c ≠ 't' ∧
      c ≠ 'f' ∧ c ≠ '-' ∧ c ≠ '[' ∧ c ≠ lbr := by
  refine ⟨?_, ?_, ?_, ?_, ?_, ?_, ?_, ?_, ?_, ?_, ?_⟩ <;>
    (intro he; subst he; revert h; decide)

theorem goodStart_ne {c : Char} (h : goodStart c = true) :
    c ≠ ']' ∧ c ≠ rbr ∧ c ≠ ',' ∧ c ≠ ':' := by
  simp only [goodStart, Bool.or_eq_true, decide_eq_true_eq] at h
  rcases h with ((((((h | h) | h) | h) | h) | h) | h) | h
  · subst h; refine ⟨by decide, by decide, by decide, by decide⟩
  · subst h; refine ⟨by decide, by decide, by decide, by decide⟩
  · subst h; refine ⟨by decide, by decide, by decide, by decide⟩
  · subst h; refine ⟨by decide, by decide, by decide, by decide⟩
  · subst h; refine ⟨by decide, by decide, by decide, by decide⟩
  · obtain ⟨h1, h2, h3, h4, _⟩ := isDig_ne_special h
    exact ⟨h1, h2, h3, h4⟩
  · subst h; refine ⟨by decide, by decide, by decide, by decide⟩
  · subst h; refine ⟨by decide, by decide, by decide, by decide⟩

theorem digVal_digChar {d : Nat} (h : d < 10) : digVal (digChar d) = d := by
  interval_cases d <;> decide

theorem isDig_digChar {d : Nat} (h : d < 10) : isDig (digChar d) = true := by
  interval_cases d <;> decide

theorem natDigsAux_all_dig {f n : Nat} (c : Char) (hc : c ∈ natDigsAux f n) :
    isDig c = true := by
  induction f generalizing n with
  | zero => simp [natDigsAux] at hc
  | succ f ih =>
    by_cases hn : n = 0
    · simp [natDigsAux, hn] at hc
    · simp only [natDigsAux, if_neg hn, List.mem_append, List.mem_singleton] at hc
      rcases hc with hc | hc
      · exact ih hc
      · subst hc; exact isDig_digChar (Nat.mod_lt n (by omega))

theorem natDigsAux_ne_nil {f n : Nat} (hf : 0 < f) (hn : n ≠ 0) :
    natDigsAux f n ≠ [] := by
  cases f with
  | zero => omega
  | succ f =>
    simp only [natDigsAux, if_neg hn]
    intro h
    exact absurd (List.append_eq_nil.mp h).2 (by simp)

theorem printNat_all_dig (n : Nat) (c : Char) (hc : c ∈ printNat n) : isDig c = true := by
  by_cases hn : n = 0
  · simp [printNat, hn] at hc; subst hc; decide
  · simp only [printNat, if_neg hn] at hc
    exact natDigsAux_all_dig c hc

theorem printNat_ne_nil (n : Nat) : printNat n ≠ [] := by
  by_cases hn : n = 0
  · simp [printNat, hn]
  · simp only [printNat, if_neg hn]
    exact natDigsAux_ne_nil (by omega) hn

theorem printNat_cons (n : Nat) : ∃ c tail, printNat n = c :: tail ∧ isDig c = true := by
  cases hp : printNat n with
  | nil => exact absurd hp (printNat_ne_nil n)
  | cons c tail =>
    exact ⟨c, tail, rfl, printNat_all_dig n c (by rw [hp]; exact List.mem_cons_self c tail)⟩

theorem takeDigs_append {ds rest : List Char} (hds : ∀ c ∈ ds, isDig c = true)
    (hrest : restOk rest = true) : takeDigs (ds ++ rest) = (ds, rest) := by
  induction ds with
  | nil =>
    cases rest with
    | nil => rfl
    | cons c cs =>
      simp only [restOk, Bool.not_eq_true'] at hrest
      simp [takeDigs, hrest]
  | cons c cs ih =>
    have hc : isDig c = true := hds c (List.mem_cons_self c cs)
    have ih2 := ih (fun d hd => hds d (List.mem_cons_of_mem c hd))
    simp only [List.cons_append, takeDigs, if_pos hc]
    rw [show cs.append rest = cs ++ rest from rfl, ih2]

theorem valOfDigs_natDigsAux {f n : Nat} (a : Nat) (hf : n ≤ f) :
    valOfDigs a (natDigsAux f n) = a * 10 ^ (natDigsAux f n).length + n := by
  induction f generalizing n a with
  | zero =>
    have : n = 0 := by omega
    simp [natDigsAux, valOfDigs, this]
  | succ f ih =>
    by_cases hn : n = 0
    · simp [natDigsAux, valOfDigs, hn]
    · have hdiv : n / 10 ≤ f := by omega
      simp only [natDigsAux, if_neg hn, valOfDigs, List.foldl_append, List.foldl_cons,
        List.foldl_nil, List.length_append, List.length_singleton]
      have hrec := ih (n := n / 10) a hdiv
      simp only [valOfDigs] at hrec
      rw [hrec, digVal_digChar (Nat.mod_lt n (by omega))]
      have : 10 * (n / 10) + n % 10 = n := Nat.div_add_mod n 10
      ring_nf
      omega

theorem parseNat_printNat (n : Nat) (rest : List Char) (hrest : restOk rest = true) :
    parseNat (printNat n ++ rest) = some (n, rest) := by
  have htake : takeDigs (printNat n ++ rest) = (printNat n, rest) :=
    takeDigs_append (printNat_all_dig n) hrest
  have hne : (printNat n).isEmpty = false := by
    cases hp : printNat n with
    | nil => exact absurd hp (printNat_ne_nil n)
    | cons c cs => rfl
  simp only [parseNat, htake, hne, Bool.false_eq_true, if_false]
  by_cases hn : n = 0
  · subst hn; rfl
  · have hval := valOfDigs_natDigsAux (f := n) (n := n) 0 (le_refl n)
    simp only [printNat, if_neg hn, hval, Nat.zero_mul, Nat.zero_add]

theorem parseStrBody_quote (cs : List Char) : parseStrBody (quoteChar :: cs) = some ([], cs) := by
  unfold parseStrBody
  rw [if_neg (by decide : ¬ quoteChar = backslashChar), if_pos rfl]

theorem parseStrBody_backslash (d : Char) (cs : List Char) :
    parseStrBody (backslashChar :: d :: cs) =
      (parseStrBody cs).map (fun p => (d :: p.1, p.2)) := by
  conv_lhs => unfold parseStrBody
  rw [if_pos rfl]

theorem parseStrBody_other {c : Char} (cs : List Char) (h1 : c ≠ backslashChar)
    (h2 : c ≠ quoteChar) :
    parseStrBody (c :: cs) = (parseStrBody cs).map (fun p => (c :: p.1, p.2)) := by
  conv_lhs => unfold parseStrBody
  rw [if_neg h1, if_neg h2]

theorem parseStrBody_escC (s : List Char) (rest : List Char) :
    parseStrBody (escC s ++ quoteChar :: rest) = some (s, rest) := by
  induction s with
  | nil => exact parseStrBody_quote rest
  | cons c cs ih =>
    by_cases hc : (c = quoteChar || c = backslashChar) = true
    · simp only [escC, if_pos hc, List.cons_append, parseStrBody_backslash, ih]
      rfl
    · have h1 : ¬ c = backslashChar := by
        simp only [Bool.or_eq_true, decide_eq_true_eq] at hc; tauto
      have h2 : ¬ c = quoteChar := by
        simp only [Bool.or_eq_true, decide_eq_true_eq] at hc; tauto
      simp only [escC, if_neg hc, List.cons_append, parseStrBody_other _ h1 h2, ih]
      rfl

theorem strC_cons (j : Json) : ∃ c cs, strC j = c :: cs ∧ goodStart c = true := by
  cases j with
  | null => exact ⟨'n', ['u', 'l', 'l'], by simp [strC], by decide⟩
  | bool b => cases b with
    | true => exact ⟨'t', ['r', 'u', 'e'], by simp [strC], by decide⟩
    | false => exact ⟨'f', ['a', 'l', 's', 'e'], by simp [strC], by decide⟩
  | num n =>
    by_cases hn : n < 0
    · exact ⟨'-', printNat n.natAbs, by simp [strC, printInt, if_pos hn], by decide⟩
    · obtain ⟨c, tail, hct, hdig⟩ := printNat_cons n.natAbs
      refine ⟨c, tail, by simp [strC, printInt, if_neg hn, hct], ?_⟩
      simp [goodStart, hdig]
  | str s => exact ⟨quoteChar, escC s.data ++ [quoteChar], by simp [strC], by decide⟩
  | arr elems => cases elems with
    | nil => exact ⟨'[', [']'], by simp [strC], by decide⟩
    | cons x xs => exact ⟨'[', strElems x xs ++ [']'], by simp [strC], by decide⟩
  | obj members => cases members with
    | nil => exact ⟨lbr, [rbr], by simp [strC], by decide⟩
    | cons m ms => exact ⟨lbr, strMembs m ms ++ [rbr], by simp [strC], by decide⟩

theorem strC_length_pos (j : Json) : 0 < (strC j).length := by
  obtain ⟨c, cs, h, _⟩ := strC_cons j
  simp [h]

theorem strElems_eq_strC_append (x : Json) (xs : List Json) :
    ∃ t, strElems x xs = strC x ++ t := by
  cases xs with
  | nil => exact ⟨[], by simp [strElems]⟩
  | cons y ys => exact ⟨',' :: strElems y ys, by simp [strElems]⟩

theorem strElems_cons (x : Json) (xs : List Json) :
    ∃ c t, strElems x xs = c :: t ∧ goodStart c = true := by
  obtain ⟨t, ht⟩ := strElems_eq_strC_append x xs
  obtain ⟨c, cs, hc, hg⟩ := strC_cons x
  exact ⟨c, cs ++ t, by simp [ht, hc], hg⟩

theorem strMembs_cons (m : String × Json) (ms : List (String × Json)) :
    ∃ t, strMembs m ms = quoteChar :: t := by
  obtain ⟨k, v⟩ := m
  cases ms with
  | nil =>
    exact ⟨escC k.data ++ quoteChar :: ':' :: strC v, by simp [strMembs, strMemb]⟩
  | cons m2 ms2 =>
    exact ⟨escC k.data ++ quoteChar :: ':' :: (strC v ++ ',' :: strMembs m2 ms2),
      by simp [strMembs, strMemb]⟩

theorem parseVal_null (f : Nat) (rest : List Char) :
    parseVal (f + 1) ('n' :: 'u' :: 'l' :: 'l' :: rest) = some (.null, rest) := rfl

theorem parseVal_true (f : Nat) (rest : List Char) :
    parseVal (f + 1) ('t' :: 'r' :: 'u' :: 'e' :: rest) = some (.bool true, rest) := rfl

theorem parseVal_false (f : Nat) (rest : List Char) :
    parseVal (f + 1) ('f' :: 'a' :: 'l' :: 's' :: 'e' :: rest) = some (.bool false, rest) := rfl

theorem parseVal_quote (f : Nat) (cs : List Char) :
    parseVal (f + 1) (quoteChar :: cs) =
      (parseStrBody cs).map (fun p => (.str (String.mk p.1), p.2)) := rfl

theorem parseVal_neg (f : Nat) (cs : List Char) :
    parseVal (f + 1) ('-' :: cs) =
      (match parseNat cs with
       | some (n, rest) => some (.num (-(n : Int)), rest)
       | none => none) := rfl

theorem parseVal_lbracket (f : Nat) (d : Char) (cs2 : List Char) :
    parseVal (f + 1) ('[' :: d :: cs2) =
      (if d = ']' then some (.arr [], cs2)
       else (parseElemsJ f (d :: cs2)).map (fun p => (.arr p.1, p.2))) := rfl

theorem parseVal_lbr (f : Nat) (d : Char) (cs2 : List Char) :
    parseVal (f + 1) (lbr :: d :: cs2) =
      (if d = rbr then some (.obj [], cs2)
       else (parseMembsJ f (d :: cs2)).map (fun p => (.obj p.1, p.2))) := rfl

theorem parseElemsJ_succ (f : Nat) (cs : List Char) :
    parseElemsJ (f + 1) cs =
      (match parseVal f cs with
       | none => none
       | some (j, rest) =>
         match rest with
         | [] => none
         | d :: rest2 =>
           if d = ',' then (parseElemsJ f rest2).map (fun p => (j :: p.1, p.2))
           else if d = ']' then some ([j], rest2)
           else none) := rfl

theorem parseMembsJ_quote (f : Nat) (cs1 : List Char) :
    parseMembsJ (f + 1) (quoteChar :: cs1) =
      (match parseStrBody cs1 with
       | none => none
       | some (k, rest) =>
         match rest with
         | ':' :: rest2 =>
           match parseVal f rest2 with
           | none => none
           | some (v, rest3) =>
             match rest3 with
             | [] => none
             | d :: rest4 =>
               if d = ',' then
                 (parseMembsJ f rest4).map (fun p => ((String.mk k, v) :: p.1, p.2))
               else if d = rbr then some ([(String.mk k, v)], rest4)
               else none
         | _ => none) := rfl

theorem parseVal_digit (f : Nat) {c : Char} (cs : List Char) (h : isDig c = true) :
    parseVal (f + 1) (c :: cs) =
      (match parseNat (c :: cs) with
       | some (n, rest) => some (.num (n : Int), rest)
       | none => none) := by
  obtain ⟨_, _, _, _, h5, h6, h7, h8, h9, _, _⟩ := isDig_ne_special h
  simp only [parseVal]
  rw [if_neg h6, if_neg h7, if_neg h8, if_neg h5, if_neg h9, if_pos h]

theorem parse_strC_aux (f : Nat) :
    (∀ j rest, (strC j).length < f → restOk rest = true →
      parseVal f (strC j ++ rest) = some (j, rest)) ∧
    (∀ x xs rest, (strElems x xs).length + 1 < f → restOk rest = true →
      parseElemsJ f (strElems x xs ++ ']' :: rest) = some (x :: xs, rest)) ∧
    (∀ m ms rest, (strMembs m ms).length + 1 < f → restOk rest = true →
      parseMembsJ f (strMembs m ms ++ rbr :: rest) = some (m :: ms, rest)) := by
  induction f with
  | zero =>
    refine ⟨?_, ?_, ?_⟩
    · intro j rest hlen _; omega
    · intro x xs rest hlen _; omega
    · intro m ms rest hlen _; omega
  | succ f ih =>
    obtain ⟨ih1, ih2, ih3⟩ := ih
    refine ⟨?_, ?_, ?_⟩
    · intro j rest hlen hrest
      cases j with
      | null =>
        have hs : strC Json.null ++ rest = 'n' :: 'u' :: 'l' :: 'l' :: rest := by simp [strC]
        rw [hs, parseVal_null]
      | bool b =>
        cases b with
        | true =>
          have hs : strC (Json.bool true) ++ rest = 't' :: 'r' :: 'u' :: 'e' :: rest := by
            simp [strC]
          rw [hs, parseVal_true]
        | false =>
          have hs : strC (Json.bool false) ++ rest = 'f' :: 'a' :: 'l' :: 's' :: 'e' :: rest := by
            simp [strC]
          rw [hs, parseVal_false]
      | num n =>
        by_cases hn : n < 0
        · have hs : strC (Json.num n) ++ rest = '-' :: (printNat n.natAbs ++ rest) := by
            simp [strC, printInt, if_pos hn]
          rw [hs, parseVal_neg, parseNat_printNat n.natAbs rest hrest]
          have habs : (-(n.natAbs : Int)) = n := by omega
          show some (Json.num (-(n.natAbs : Int)), rest) = some (Json.num n, rest)
          rw [habs]
        · obtain ⟨c, tail, hct, hdig⟩ := printNat_cons n.natAbs
          have hs : strC (Json.num n) ++ rest = c :: (tail ++ rest) := by
            simp [strC, printInt, if_neg hn, hct]
          have hpn : parseNat (c :: (tail ++ rest)) = some (n.natAbs, rest) := by
            have h := parseNat_printNat n.natAbs rest hrest
            rwa [hct, List.cons_append] at h
          rw [hs, parseVal_digit f _ hdig, hpn]
          have habs : ((n.natAbs : Int)) = n := by omega
          show some (Json.num ((n.natAbs : Int)), rest) = some (Json.num n, rest)
          rw [habs]
      | str s =>
        have hs : strC (Json.str s) ++ rest = quoteChar :: (escC s.data ++ quoteChar :: rest) := by
          simp [strC]
        rw [hs, parseVal_quote, parseStrBody_escC]
        rfl
      | arr elems =>
        cases elems with
        | nil =>
          have hs : strC (Json.arr []) ++ rest = '[' :: ']' :: rest := by simp [strC]
          rw [hs, parseVal_lbracket, if_pos rfl]
        | cons x xs =>
          obtain ⟨c0, t0, hsplit, hgood⟩ := strElems_cons x xs
          have hne := (goodStart_ne hgood).1
          have hs : strC (Json.arr (x :: xs)) ++ rest
              = '[' :: c0 :: (t0 ++ ']' :: rest) := by
            simp [strC, hsplit]
          have hback : c0 :: (t0 ++ ']' :: rest) = strElems x xs ++ ']' :: rest := by
            simp [hsplit]
          have hfuel : (strElems x xs).length + 1 < f := by
            have hl : (strC (Json.arr (x :: xs))).length = (strElems x xs).length + 2 := by
              simp [strC]
            omega
          rw [hs, parseVal_lbracket, if_neg hne, hback, ih2 x xs rest hfuel hrest]
          rfl
      | obj members =>
        cases members with
        | nil =>
          have hs : strC (Json.obj []) ++ rest = lbr :: rbr :: rest := by simp [strC]
          rw [hs, parseVal_lbr, if_pos rfl]
        | cons m ms =>
          obtain ⟨t0, hsplit⟩ := strMembs_cons m ms
          have hne : quoteChar ≠ rbr := by decide
          have hs : strC (Json.obj (m :: ms)) ++ rest
              = lbr :: quoteChar :: (t0 ++ rbr :: rest) := by
            simp [strC, hsplit]
          have hback : quoteChar :: (t0 ++ rbr :: rest) = strMembs m ms ++ rbr :: rest := by
            simp [hsplit]
          have hfuel : (strMembs m ms).length + 1 < f := by
            have hl : (strC (Json.obj (m :: ms))).length = (strMembs m ms).length + 2 := by
              simp [strC]
            omega
          rw [hs, parseVal_lbr, if_neg hne, hback, ih3 m ms rest hfuel hrest]
          rfl
    · intro x xs rest hlen hrest
      cases xs with
      | nil =>
        have hs : strElems x [] ++ ']' :: rest = strC x ++ ']' :: rest := by simp [strElems]
        have hfuel : (strC x).length < f := by
          have hl : (strElems x []).length = (strC x).length := by simp [strElems]
          omega
        rw [parseElemsJ_succ, hs, ih1 x (']' :: rest) hfuel (by rfl)]
        rfl
      | cons y ys =>
        have hs : strElems x (y :: ys) ++ ']' :: rest
            = strC x ++ ',' :: (strElems y ys ++ ']' :: rest) := by
          simp [strElems]
        have hl : (strElems x (y :: ys)).length
            = (strC x).length + 1 + (strElems y ys).length := by
          simp [strElems]
          omega
        have hpos := strC_length_pos x
        have hfx : (strC x).length < f := by omega
        have hfy : (strElems y ys).length + 1 < f := by omega
        rw [parseElemsJ_succ, hs, ih1 x (',' :: (strElems y ys ++ ']' :: rest)) hfx (by rfl)]
        simp [ih2 y ys rest hfy hrest]
    · intro m ms rest hlen hrest
      obtain ⟨k, v⟩ := m
      have hlm : (strMemb (k, v)).length = (escC k.data).length + 3 + (strC v).length := by
        simp [strMemb]
        omega
      cases ms with
      | nil =>
        have hs : strMembs (k, v) [] ++ rbr :: rest
            = quoteChar :: (escC k.data ++ quoteChar :: (':' :: (strC v ++ rbr :: rest))) := by
          simp [strMembs, strMemb]
        have hfv : (strC v).length < f := by
          have hl : (strMembs (k, v) []).length = (strMemb (k, v)).length := by
            simp [strMembs]
          omega
        have hne : ¬ ((rbr : Char) = ',') := by decide
        rw [hs, parseMembsJ_quote, parseStrBody_escC]
        simp [ih1 v (rbr :: rest) hfv (by rfl), hne]
      | cons m2 ms2 =>
        have hs : strMembs (k, v) (m2 :: ms2) ++ rbr :: rest
            = quoteChar :: (escC k.data ++ quoteChar ::
                (':' :: (strC v ++ ',' :: (strMembs m2 ms2 ++ rbr :: rest)))) := by
          simp [strMembs, strMemb]
        have hl : (strMembs (k, v) (m2 :: ms2)).length
            = (strMemb (k, v)).length + 1 + (strMembs m2 ms2).length := by
          simp [strMembs]
          omega
        have hfv : (strC v).length < f := by omega
        have hfm : (strMembs m2 ms2).length + 1 < f := by omega
        rw [hs, parseMembsJ_quote, parseStrBody_escC]
        simp [ih1 v (',' :: (strMembs m2 ms2 ++ rbr :: rest)) hfv (by rfl),
          ih3 m2 ms2 rest hfm hrest]

/-- The serialization round trip: parsing the stored `params` text recovers
exactly the object that was stringified at enqueue time. -/
theorem jsonParse_jsonStringify (j : Json) : jsonParse (jsonStringify j) = some j := by
  have hlen : (strC j).length < (strC j).length + 1 := by omega
  have h := (parse_strC_aux ((strC j).length + 1)).1 j [] hlen rfl
  rw [List.append_nil] at h
  show (match parseVal ((strC j).length + 1) (strC j) with
    | some (j, []) => some j
    | _ => none) = some j
  rw [h]

/-! ### The jobs table and the queue operations

One `JobRow` per row of the `jobs` table created by `initQueueDb`.  The
table is embedded as a list in rowid (insertion) order — the order in
which SQLite's scan visits rows.  `DATETIME` values are modelled as
naturals supplied by the caller-side clock (`CURRENT_TIMESTAMP`). -/

structure JobRow where
  id : String
  params : String
  status : String
  createdAt : Nat
  processedAt : Option Nat
  error : Option String
deriving DecidableEq

/-- `id TEXT PRIMARY KEY`: ids in the table are pairwise distinct. -/
def NodupIds (rows : List JobRow) : Prop := (rows.map JobRow.id).Nodup

/-- Read the `status` column of the row with the given id (`none` when no
row matches). -/
def statusOf (id : String) (rows : List JobRow) : Option String :=
  (rows.find? (fun r => r.id = id)).map JobRow.status

/-- Read the `error` column of the row with the given id. -/
def errorOf (id : String) (rows : List JobRow) : Option (Option String) :=
  (rows.find? (fun r => r.id = id)).map JobRow.error

/-- Read the `processedAt` column of the row with the given id. -/
def processedAtOf (id : String) (rows : List JobRow) : Option (Option Nat) :=
  (rows.find? (fun r => r.id = id)).map JobRow.processedAt

/-- `initQueueDb` on a fresh database file: the `jobs` table exists and is
empty. -/
def initQueueDb : List JobRow := []

/-- `SELECT id, params FROM jobs WHERE status = 'queued' ORDER BY createdAt
LIMIT 1`: the first row in scan order among the `queued` rows of minimal
`createdAt` (SQLite's tie-break on equal sort keys is the scan order). -/
def selectOldestQueued (rows : List JobRow) : Option JobRow :=
  (rows.filter (fun r => r.status = "queued")).foldl
    (fun acc r =>
      match acc with
      | none => some r
      | some b => if r.createdAt < b.createdAt then some r else some b)
    none

/-- `UPDATE jobs SET status = 'running', processedAt = CURRENT_TIMESTAMP
WHERE id = ?`. -/
def markRunning (id : String) (now : Nat) (rows : List JobRow) : List JobRow :=
  rows.map (fun r =>
    if r.id = id then { r with status := "running", processedAt := some now } else r)

/-- `addJobToQueue(id, params)`: `INSERT INTO jobs (id, params) VALUES (?, ?)`
with `JSON.stringify(params)` as the stored text.  `id` is the primary
key, so the insert rejects with a unique-constraint error when a row with
that id already exists (and the table is not touched); otherwise one row
is appended with the schema defaults `status = 'queued'`,
`createdAt = CURRENT_TIMESTAMP`, `processedAt = NULL`, `error = NULL`.
The error is not caught in `addJobToQueue`; it propagates to the caller. -/
def addJobToQueue (id : String) (p : Json) (now : Nat) (rows : List JobRow) :
    Except String Unit × List JobRow :=
  if rows.any (fun r => r.id = id) then
    (Except.error "SQLITE_CONSTRAINT: UNIQUE constraint failed: jobs.id", rows)
  else
    (Except.ok (),
     rows ++ [{ id := id, params := jsonStringify p, status := "queued",
                createdAt := now, processedAt := none, error := none }])

/-- The error SQLite raises when `ROLLBACK` is executed with no open
transaction — which is what the `catch` block in `getNextJob` does
whenever the failure happened before `BEGIN` succeeded or after `COMMIT`. -/
def rollbackNoTxnMsg : String := "SQLITE_ERROR: cannot rollback - no transaction is active"

/-- Which `await`ed SQLite statement inside `getNextJob`'s `try` block
rejects, if any.  `atBegin` is `SQLITE_BUSY` write contention on
`BEGIN IMMEDIATE TRANSACTION` (a conflicting concurrent exclusive
transaction holds the write lock); the others model a failing
SELECT / UPDATE / COMMIT inside the open transaction. -/
inductive FailPoint where
  | noFail
  | atBegin
  | atSelect
  | atUpdate
  | atCommit
deriving DecidableEq

/-- `getNextJob()`, line by line as a function of the injected failure
point, the clock and the table:

* `BEGIN IMMEDIATE TRANSACTION` rejects (`atBegin`): the `catch` block
  runs `db.exec('ROLLBACK')` with no transaction active; that statement
  itself rejects, and its error escapes `getNextJob` — the caller gets a
  rejected promise, not `null`.
* the SELECT, UPDATE or COMMIT rejects (`atSelect`/`atUpdate`/`atCommit`):
  the transaction is open, so the `catch` block's `ROLLBACK` succeeds,
  undoing any uncommitted UPDATE, and `null` is returned.
* no queued row: `COMMIT` the empty transaction and return `null`.
* otherwise the oldest queued row is marked `running` with `processedAt`
  stamped, the transaction commits, and only then does
  `JSON.parse(job.params)` run.  If the stored text is not JSON the parse
  throws after COMMIT; the `catch` block's `ROLLBACK` runs outside any
  transaction, its own error escapes, and the committed `running` update
  persists. -/
def getNextJob (fp : FailPoint) (now : Nat) (rows : List JobRow) :
    Except String (Option (String × Json)) × List JobRow :=
  if fp = FailPoint.atBegin then
    (Except.error rollbackNoTxnMsg, rows)
  else if fp = FailPoint.atSelect then
    (Except.ok none, rows)
  else
    match selectOldestQueued rows with
    | none => (Except.ok none, rows)
    | some job =>
      if fp = FailPoint.atUpdate then (Except.ok none, rows)
      else if fp = FailPoint.atCommit then (Except.ok none, rows)
      else
        match jsonParse job.params with
        | some p => (Except.ok (some (job.id, p)), markRunning job.id now rows)
        | none => (Except.error rollbackNoTxnMsg, markRunning job.id now rows)

/-- `completeJob(id)`: `UPDATE jobs SET status = 'completed' WHERE id = ?`.
Unconditional: no check of the prior status, and a no-op when no row
matches. -/
def completeJob (id : String) (rows : List JobRow) : List JobRow :=
  rows.map (fun r => if r.id = id then { r with status := "completed" } else r)

/-- `failJob(id, error)`: `UPDATE jobs SET status = 'failed', error = ?
WHERE id = ?`.  Unconditional, like `completeJob`. -/
def failJob (id : String) (e : String) (rows : List JobRow) : List JobRow :=
  rows.map (fun r => if r.id = id then { r with status := "failed", error := some e } else r)

/-! ### Basic lemmas about the table operations -/

theorem find_update (id2 id : String) (g : JobRow → JobRow)
    (hg : ∀ r, (g r).id = r.id) (rows : List JobRow) :
    (rows.map (fun r => if r.id = id then g r else r)).find? (fun r => r.id = id2)
      = (rows.find? (fun r => r.id = id2)).map (fun r => if r.id = id then g r else r) := by
  induction rows with
  | nil => rfl
  | cons r t ih =>
    have hid : (if r.id = id then g r else r).id = r.id := by
      by_cases hr : r.id = id <;> simp [hr, hg]
    by_cases h2 : r.id = id2
    · rw [List.map_cons, List.find?_cons_of_pos _ (by simp only [hid]; simp [h2]),
        List.find?_cons_of_pos _ (by simp [h2])]
      rfl
    · rw [List.map_cons, List.find?_cons_of_neg _ (by simp only [hid]; simp [h2]),
        List.find?_cons_of_neg _ (by simp [h2]), ih]

theorem statusOf_complete_self (id : String) (rows : List JobRow)
    (h : ∃ r ∈ rows, r.id = id) :
    statusOf id (completeJob id rows) = some "completed" := by
  obtain ⟨r0, hr0, hid0⟩ := h
  have hex : (rows.find? (fun r => r.id = id)).isSome := by
    rw [List.find?_isSome]
    exact ⟨r0, hr0, by simp [hid0]⟩
  obtain ⟨r, hfr⟩ := Option.isSome_iff_exists.mp hex
  have hrid : r.id = id := by simpa using List.find?_some hfr
  unfold statusOf completeJob
  rw [find_update id id (fun r => { r with status := "completed" }) (fun r => rfl) rows, hfr]
  simp [hrid]

theorem statusOf_fail_self (id : String) (e : String) (rows : List JobRow)
    (h : ∃ r ∈ rows, r.id = id) :
    statusOf id (failJob id e rows) = some "failed" ∧
      errorOf id (failJob id e rows) = some (some e) := by
  obtain ⟨r0, hr0, hid0⟩ := h
  have hex : (rows.find? (fun r => r.id = id)).isSome := by
    rw [List.find?_isSome]
    exact ⟨r0, hr0, by simp [hid0]⟩
  obtain ⟨r, hfr⟩ := Option.isSome_iff_exists.mp hex
  have hrid : r.id = id := by simpa using List.find?_some hfr
  constructor
  · unfold statusOf failJob
    rw [find_update id id (fun r => { r with status := "failed", error := some e })
      (fun r => rfl) rows, hfr]
    simp [hrid]
  · unfold errorOf failJob
    rw [find_update id id (fun r => { r with status := "failed", error := some e })
      (fun r => rfl) rows, hfr]
    simp [hrid]

theorem statusOf_markRunning_self (id : String) (now : Nat) (rows : List JobRow)
    (h : ∃ r ∈ rows, r.id = id) :
    statusOf id (markRunning id now rows) = some "running" ∧
      processedAtOf id (markRunning id now rows) = some (some now) := by
  obtain ⟨r0, hr0, hid0⟩ := h
  have hex : (rows.find? (fun r => r.id = id)).isSome := by
    rw [List.find?_isSome]
    exact ⟨r0, hr0, by simp [hid0]⟩
  obtain ⟨r, hfr⟩ := Option.isSome_iff_exists.mp hex
  have hrid : r.id = id := by simpa using List.find?_some hfr
  constructor
  · unfold statusOf markRunning
    rw [find_update id id (fun r => { r with status := "running", processedAt := some now })
      (fun r => rfl) rows, hfr]
    simp [hrid]
  · unfold processedAtOf markRunning
    rw [find_update id id (fun r => { r with status := "running", processedAt := some now })
      (fun r => rfl) rows, hfr]
    simp [hrid]

theorem statusOf_markRunning_other (id id2 : String) (now : Nat) (rows : List JobRow)
    (h : id2 ≠ id) :
    statusOf id2 (markRunning id now rows) = statusOf id2 rows := by
  unfold statusOf markRunning
  rw [find_update id2 id (fun r => { r with status := "running", processedAt := some now })
    (fun r => rfl) rows]
  cases hf : rows.find? (fun r => r.id = id2) with
  | none => rfl
  | some r =>
    have hrid : r.id = id2 := by simpa using List.find?_some hf
    simp [hrid, h]

theorem foldl_min_some (t : List JobRow) (b : JobRow) :
    ∃ c, t.foldl (fun acc r => match acc with
        | none => some r
        | some b => if r.createdAt < b.createdAt then some r else some b) (some b)
      = some c ∧ (c = b ∨ c ∈ t) ∧ c.createdAt ≤ b.createdAt ∧
      ∀ r ∈ t, c.createdAt ≤ r.createdAt := by
  induction t generalizing b with
  | nil => exact ⟨b, rfl, Or.inl rfl, le_refl _, by simp⟩
  | cons r t ih =>
    rw [List.foldl_cons]
    by_cases hr : r.createdAt < b.createdAt
    · obtain ⟨c, hc, hmem, hle, hall⟩ := ih r
      refine ⟨c, ?_, ?_, ?_, ?_⟩
      · rw [show (match some b with
          | none => some r
          | some b => if r.createdAt < b.createdAt then some r else some b)
            = some r by simp [hr]]
        exact hc
      · rcases hmem with h | h
        · exact Or.inr (h ▸ List.mem_cons_self r t)
        · exact Or.inr (List.mem_cons_of_mem r h)
      · omega
      · intro x hx
        rcases List.mem_cons.mp hx with h | h
        · subst h; exact hle
        · exact hall x h
    · obtain ⟨c, hc, hmem, hle, hall⟩ := ih b
      refine ⟨c, ?_, ?_, ?_, ?_⟩
      · rw [show (match some b with
          | none => some r
          | some b => if r.createdAt < b.createdAt then some r else some b)
            = some b by simp [hr]]
        exact hc
      · rcases hmem with h | h
        · exact Or.inl h
        · exact Or.inr (List.mem_cons_of_mem r h)
      · exact hle
      · intro x hx
        rcases List.mem_cons.mp hx with h | h
        · subst h; omega
        · exact hall x h

theorem selectOldestQueued_some {rows : List JobRow} {job : JobRow}
    (h : selectOldestQueued rows = some job) :
    job ∈ rows ∧ job.status = "queued" ∧
      ∀ r ∈ rows, r.status = "queued" → job.createdAt ≤ r.createdAt := by
  unfold selectOldestQueued at h
  cases hq : rows.filter (fun r => r.status = "queued") with
  | nil => rw [hq] at h; exact absurd h (by simp)
  | cons r0 t =>
    rw [hq, List.foldl_cons] at h
    obtain ⟨c, hc, hmem, hle, hall⟩ := foldl_min_some t r0
    rw [show (match (none : Option JobRow) with
      | none => some r0
      | some b => if r0.createdAt < b.createdAt then some r0 else some b) = some r0
      from rfl, hc] at h
    obtain rfl : c = job := by simpa using h
    have hjq : c ∈ rows.filter (fun r => r.status = "queued") := by
      rw [hq]
      rcases hmem with h1 | h1
      · exact h1 ▸ List.mem_cons_self r0 t
      · exact List.mem_cons_of_mem r0 h1
    have hmemrows := List.mem_filter.mp hjq
    refine ⟨hmemrows.1, by simpa using hmemrows.2, ?_⟩
    intro r hrmem hrq
    have hrf : r ∈ rows.filter (fun r => r.status = "queued") := by
      rw [List.mem_filter]
      exact ⟨hrmem, by simp [hrq]⟩
    rw [hq] at hrf
    rcases List.mem_cons.mp hrf with h1 | h1
    · subst h1; exact hle
    · exact hall r h1

theorem selectOldestQueued_none {rows : List JobRow} :
    selectOldestQueued rows = none ↔ ∀ r ∈ rows, r.status ≠ "queued" := by
  constructor
  · intro h r hr hst
    unfold selectOldestQueued at h
    cases hq : rows.filter (fun r => r.status = "queued") with
    | nil =>
      have : r ∈ rows.filter (fun r => r.status = "queued") := by
        rw [List.mem_filter]; exact ⟨hr, by simp [hst]⟩
      rw [hq] at this
      simp at this
    | cons r0 t =>
      rw [hq, List.foldl_cons] at h
      obtain ⟨c, hc, _, _, _⟩ := foldl_min_some t r0
      rw [show (match (none : Option JobRow) with
        | none => some r0
        | some b => if r0.createdAt < b.createdAt then some r0 else some b) = some r0
        from rfl, hc] at h
      exact absurd h (by simp)
  · intro h
    unfold selectOldestQueued
    have : rows.filter (fun r => r.status = "queued") = [] := by
      rw [List.filter_eq_nil_iff]
      intro r hr
      simp [h r hr]
    rw [this]
    rfl

theorem find_of_mem_nodup {rows : List JobRow} {job : JobRow}
    (hnd : NodupIds rows) (hm : job ∈ rows) :
    rows.find? (fun r => r.id = job.id) = some job := by
  induction rows with
  | nil => simp at hm
  | cons r t ih =>
    by_cases hpr : r.id = job.id
    · have : r = job := by
        rcases List.mem_cons.mp hm with h1 | h1
        · exact h1.symm
        · exfalso
          have hin : job.id ∈ t.map JobRow.id := List.mem_map_of_mem JobRow.id h1
          have := (List.nodup_cons.mp hnd).1
          rw [hpr] at this
          exact this hin
      rw [List.find?_cons_of_pos _ (by simp [hpr]), this]
    · have hjt : job ∈ t := by
        rcases List.mem_cons.mp hm with h1 | h1
        · exact absurd (by rw [h1] : r.id = job.id) hpr
        · exact h1
      rw [List.find?_cons_of_neg _ (by simp [hpr])]
      exact ih (List.nodup_cons.mp hnd).2 hjt

theorem statusOf_of_mem_nodup {rows : List JobRow} {job : JobRow}
    (hnd : NodupIds rows) (hm : job ∈ rows) :
    statusOf job.id rows = some job.status := by
  unfold statusOf
  rw [find_of_mem_nodup hnd hm]
  rfl

/-! ### Behaviour of `getNextJob` by case -/

theorem getNextJob_atBegin (now : Nat) (rows : List JobRow) :
    getNextJob FailPoint.atBegin now rows = (Except.error rollbackNoTxnMsg, rows) := rfl

theorem getNextJob_atSelect (now : Nat) (rows : List JobRow) :
    getNextJob FailPoint.atSelect now rows = (Except.ok none, rows) := rfl

theorem getNextJob_atUpdate (now : Nat) (rows : List JobRow) :
    getNextJob FailPoint.atUpdate now rows = (Except.ok none, rows) := by
  unfold getNextJob
  cases hsel : selectOldestQueued rows <;> simp

theorem getNextJob_atCommit (now : Nat) (rows : List JobRow) :
    getNextJob FailPoint.atCommit now rows = (Except.ok none, rows) := by
  unfold getNextJob
  cases hsel : selectOldestQueued rows <;> simp

theorem getNextJob_noFail_empty (now : Nat) (rows : List JobRow)
    (h : ∀ r ∈ rows, r.status ≠ "queued") :
    getNextJob FailPoint.noFail now rows = (Except.ok none, rows) := by
  unfold getNextJob
  rw [selectOldestQueued_none.mpr h]
  simp

theorem getNextJob_noFail_found {rows : List JobRow} {job : JobRow} {p : Json} (now : Nat)
    (hsel : selectOldestQueued rows = some job) (hp : jsonParse job.params = some p) :
    getNextJob FailPoint.noFail now rows
      = (Except.ok (some (job.id, p)), markRunning job.id now rows) := by
  unfold getNextJob
  rw [hsel]
  simp [hp]

theorem getNextJob_noFail_badParams {rows : List JobRow} {job : JobRow} (now : Nat)
    (hsel : selectOldestQueued rows = some job) (hp : jsonParse job.params = none) :
    getNextJob FailPoint.noFail now rows
      = (Except.error rollbackNoTxnMsg, markRunning job.id now rows) := by
  unfold getNextJob
  rw [hsel]
  simp [hp]

/-! ### Sequential traces over the queue API -/

/-- One call into the queue API with its call-time arguments (the clock
value that a `CURRENT_TIMESTAMP` default would read, and for claims the
injected failure point). -/
inductive Op where
  | enqueue (id : String) (p : Json) (now : Nat)
  | claim (fp : FailPoint) (now : Nat)
  | complete (id : String)
  | fail (id : String) (e : String)

/-- Table state after one call (results discarded). -/
def stepOp (rows : List JobRow) : Op → List JobRow
  | .enqueue id p now => (addJobToQueue id p now rows).2
  | .claim fp now => (getNextJob fp now rows).2
  | .complete id => completeJob id rows
  | .fail id e => failJob id e rows

/-- Does this call, issued in this state, hand the job with this id to its
caller?  Only a claim resolving to `ok (some (id, _))` does. -/
def opReturns (id : String) (rows : List JobRow) : Op → Bool
  | .claim fp now =>
    match (getNextJob fp now rows).1 with
    | Except.ok (some (jid, _)) => jid = id
    | _ => false
  | _ => false

/-- Number of calls along the trace that hand the job with this id to
their caller. -/
def countReturns (id : String) : List Op → List JobRow → Nat
  | [], _ => 0
  | op :: ops, rows =>
    (if opReturns id rows op then 1 else 0) + countReturns id ops (stepOp rows op)

/-- The row with this id exists and is no longer `queued`. -/
def deadId (id : String) (rows : List JobRow) : Prop :=
  ∃ s, statusOf id rows = some s ∧ s ≠ "queued"

theorem statusOf_update_eq (id2 id : String) (g : JobRow → JobRow)
    (hg : ∀ r, (g r).id = r.id) (rows : List JobRow) :
    statusOf id2 (rows.map (fun r => if r.id = id then g r else r))
      = (rows.find? (fun r => r.id = id2)).map
          (fun r => if r.id = id then (g r).status else r.status) := by
  unfold statusOf
  rw [find_update id2 id g hg rows]
  cases hf : rows.find? (fun r => r.id = id2) with
  | none => rfl
  | some r =>
    by_cases hr : r.id = id <;> simp [hr]

theorem mapId_update (id : String) (g : JobRow → JobRow)
    (hg : ∀ r, (g r).id = r.id) (rows : List JobRow) :
    (rows.map (fun r => if r.id = id then g r else r)).map JobRow.id
      = rows.map JobRow.id := by
  rw [List.map_map]
  apply List.map_congr_left
  intro r _
  by_cases hr : r.id = id <;> simp [hr, hg]

theorem markRunning_mapId (id : String) (now : Nat) (rows : List JobRow) :
    (markRunning id now rows).map JobRow.id = rows.map JobRow.id :=
  mapId_update id (fun r => { r with status := "running", processedAt := some now })
    (fun r => rfl) rows

theorem completeJob_mapId (id : String) (rows : List JobRow) :
    (completeJob id rows).map JobRow.id = rows.map JobRow.id :=
  mapId_update id (fun r => { r with status := "completed" }) (fun r => rfl) rows

theorem failJob_mapId (id e : String) (rows : List JobRow) :
    (failJob id e rows).map JobRow.id = rows.map JobRow.id :=
  mapId_update id (fun r => { r with status := "failed", error := some e })
    (fun r => rfl) rows

theorem getNextJob_snd (fp : FailPoint) (now : Nat) (rows : List JobRow) :
    (getNextJob fp now rows).2 = rows ∨
      ∃ job, selectOldestQueued rows = some job ∧
        (getNextJob fp now rows).2 = markRunning job.id now rows := by
  cases fp with
  | atBegin => exact Or.inl (by rw [getNextJob_atBegin])
  | atSelect => exact Or.inl (by rw [getNextJob_atSelect])
  | atUpdate => exact Or.inl (by rw [getNextJob_atUpdate])
  | atCommit => exact Or.inl (by rw [getNextJob_atCommit])
  | noFail =>
    cases hsel : selectOldestQueued rows with
    | none =>
      refine Or.inl ?_
      unfold getNextJob
      rw [hsel]
      simp
    | some job =>
      cases hp : jsonParse job.params with
      | some p => exact Or.inr ⟨job, rfl, by rw [getNextJob_noFail_found now hsel hp]⟩
      | none => exact Or.inr ⟨job, rfl, by rw [getNextJob_noFail_badParams now hsel hp]⟩

theorem nodupIds_markRunning (id : String) (now : Nat) (rows : List JobRow)
    (h : NodupIds rows) : NodupIds (markRunning id now rows) := by
  unfold NodupIds
  rw [markRunning_mapId]
  exact h

theorem nodupIds_step (rows : List JobRow) (op : Op) (h : NodupIds rows) :
    NodupIds (stepOp rows op) := by
  cases op with
  | enqueue id p now =>
    show NodupIds (addJobToQueue id p now rows).2
    unfold addJobToQueue
    by_cases hany : rows.any (fun r => r.id = id) = true
    · simp only [hany, if_true]
      exact h
    · have hnotin : id ∉ rows.map JobRow.id := by
        intro hmem
        obtain ⟨r, hr, hrid⟩ := List.mem_map.mp hmem
        exact hany (List.any_eq_true.mpr ⟨r, hr, by simp [hrid]⟩)
      simp only [hany, Bool.false_eq_true, if_false]
      have h2 : (rows.map JobRow.id).Nodup := h
      unfold NodupIds
      rw [List.map_append]
      rw [List.nodup_append]
      refine ⟨h2, by simp, ?_⟩
      intro a ha hb
      simp only [List.map_cons, List.map_nil, List.mem_singleton] at hb
      subst hb
      exact hnotin ha
  | claim fp now =>
    show NodupIds (getNextJob fp now rows).2
    rcases getNextJob_snd fp now rows with heq | ⟨job, hsel, heq⟩
    · rw [heq]; exact h
    · rw [heq]; exact nodupIds_markRunning job.id now rows h
  | complete id =>
    show NodupIds (completeJob id rows)
    unfold NodupIds
    rw [completeJob_mapId]
    exact h
  | fail id e =>
    show NodupIds (failJob id e rows)
    unfold NodupIds
    rw [failJob_mapId]
    exact h

theorem getNextJob_fst_ok_some {fp : FailPoint} {now : Nat} {rows : List JobRow}
    {id : String} {p : Json}
    (h : (getNextJob fp now rows).1 = Except.ok (some (id, p))) :
    ∃ job, fp = FailPoint.noFail ∧ selectOldestQueued rows = some job ∧ job.id = id ∧
      jsonParse job.params = some p ∧
      (getNextJob fp now rows).2 = markRunning job.id now rows := by
  cases fp with
  | atBegin => rw [getNextJob_atBegin] at h; exact absurd h (by simp)
  | atSelect => rw [getNextJob_atSelect] at h; exact absurd h (by simp)
  | atUpdate => rw [getNextJob_atUpdate] at h; exact absurd h (by simp)
  | atCommit => rw [getNextJob_atCommit] at h; exact absurd h (by simp)
  | noFail =>
    cases hsel : selectOldestQueued rows with
    | none =>
      rw [getNextJob_noFail_empty now rows (fun r hr => (selectOldestQueued_none.mp hsel) r hr)]
        at h
      exact absurd h (by simp)
    | some job =>
      cases hp : jsonParse job.params with
      | none =>
        rw [getNextJob_noFail_badParams now hsel hp] at h
        exact absurd h (by simp)
      | some p2 =>
        rw [getNextJob_noFail_found now hsel hp] at h
        simp only [Except.ok.injEq, Option.some.injEq, Prod.mk.injEq] at h
        obtain ⟨hid, hp2⟩ := h
        subst hid
        subst hp2
        exact ⟨job, rfl, rfl, rfl, hp, by rw [getNextJob_noFail_found now hsel hp]⟩

theorem opReturns_spec {rows : List JobRow} {id : String} {op : Op}
    (hnd : NodupIds rows) (h : opReturns id rows op = true) :
    statusOf id rows = some "queued" ∧ statusOf id (stepOp rows op) = some "running" := by
  cases op with
  | enqueue id2 p now => simp [opReturns] at h
  | complete id2 => simp [opReturns] at h
  | fail id2 e => simp [opReturns] at h
  | claim fp now =>
    have h2 : (match (getNextJob fp now rows).1 with
      | Except.ok (some (jid, _)) => (jid = id : Bool)
      | _ => false) = true := h
    cases hres : (getNextJob fp now rows).1 with
    | error e => rw [hres] at h2; simp at h2
    | ok o =>
      cases o with
      | none => rw [hres] at h2; simp at h2
      | some pr =>
        obtain ⟨jid, p⟩ := pr
        rw [hres] at h2
        simp only [decide_eq_true_eq] at h2
        subst h2
        obtain ⟨job, _, hsel, hjid, hp, hsnd⟩ := getNextJob_fst_ok_some hres
        obtain ⟨hmem, hq, _⟩ := selectOldestQueued_some hsel
        subst hjid
        constructor
        · rw [statusOf_of_mem_nodup hnd hmem, hq]
        · show statusOf job.id (getNextJob fp now rows).2 = some "running"
          rw [hsnd]
          exact (statusOf_markRunning_self job.id now rows ⟨job, hmem, rfl⟩).1

theorem find_append_of_some {rows : List JobRow} {p : JobRow → Bool} {a : JobRow}
    (h : rows.find? p = some a) (l2 : List JobRow) : (rows ++ l2).find? p = some a := by
  induction rows with
  | nil => simp at h
  | cons r t ih =>
    cases hp : p r with
    | true =>
      rw [List.find?_cons_of_pos _ hp] at h
      rw [List.cons_append, List.find?_cons_of_pos _ hp]
      exact h
    | false =>
      rw [List.find?_cons_of_neg _ (by simp [hp])] at h
      rw [List.cons_append, List.find?_cons_of_neg _ (by simp [hp])]
      exact ih h

theorem deadId_update {rows : List JobRow} {id : String} (jid : String) (g : JobRow → JobRow)
    (hg : ∀ r, (g r).id = r.id) (hstat : ∀ r, (g r).status ≠ "queued")
    (h : deadId id rows) : deadId id (rows.map (fun r => if r.id = jid then g r else r)) := by
  obtain ⟨s, hs, hq⟩ := h
  unfold statusOf at hs
  cases hf : rows.find? (fun r => r.id = id) with
  | none => rw [hf] at hs; simp at hs
  | some r =>
    rw [hf] at hs
    refine ⟨if r.id = jid then (g r).status else r.status, ?_, ?_⟩
    · rw [statusOf_update_eq id jid g hg rows, hf]
      rfl
    · by_cases hr : r.id = jid
      · simp only [hr, if_true]
        exact hstat r
      · simp only [hr, if_false]
        rw [show r.status = s from by simpa using hs]
        exact hq

theorem deadId_stepOp {rows : List JobRow} {id : String} (op : Op)
    (h : deadId id rows) : deadId id (stepOp rows op) := by
  cases op with
  | enqueue id2 p now =>
    show deadId id (addJobToQueue id2 p now rows).2
    unfold addJobToQueue
    by_cases hany : rows.any (fun r => r.id = id2) = true
    · simp only [hany, if_true]
      exact h
    · simp only [hany, Bool.false_eq_true, if_false]
      obtain ⟨s, hs, hq⟩ := h
      unfold statusOf at hs
      cases hf : rows.find? (fun r => r.id = id) with
      | none => rw [hf] at hs; simp at hs
      | some r =>
        rw [hf] at hs
        refine ⟨s, ?_, hq⟩
        unfold statusOf
        rw [find_append_of_some hf]
        exact hs
  | claim fp now =>
    show deadId id (getNextJob fp now rows).2
    rcases getNextJob_snd fp now rows with heq | ⟨job, hsel, heq⟩
    · rw [heq]; exact h
    · rw [heq]
      exact deadId_update job.id
        (fun r => { r with status := "running", processedAt := some now })
        (fun r => rfl) (fun r => by show "running" ≠ "queued"; decide) h
  | complete id2 =>
    show deadId id (completeJob id2 rows)
    exact deadId_update id2 (fun r => { r with status := "completed" })
      (fun r => rfl) (fun r => by show "completed" ≠ "queued"; decide) h
  | fail id2 e =>
    show deadId id (failJob id2 e rows)
    exact deadId_update id2 (fun r => { r with status := "failed", error := some e })
      (fun r => rfl) (fun r => by show "failed" ≠ "queued"; decide) h

theorem countReturns_zero_of_dead {id : String} (ops : List Op) {rows : List JobRow}
    (hnd : NodupIds rows) (h : deadId id rows) : countReturns id ops rows = 0 := by
  induction ops generalizing rows with
  | nil => rfl
  | cons op ops ih =>
    have hret : opReturns id rows op = false := by
      by_contra hc
      have hq := (opReturns_spec hnd (by simpa using hc)).1
      obtain ⟨s, hs, hsq⟩ := h
      rw [hq] at hs
      exact hsq (by simpa using hs.symm)
    unfold countReturns
    rw [hret]
    simp only [Bool.false_eq_true, if_false, Nat.zero_add]
    exact ih (nodupIds_step rows op hnd) (deadId_stepOp op h)

/-! ### Concurrent claims: interleaving model

`getNextJob` suspends at every `await`ed SQLite statement, so any number
of workers (separate connections) interleave between statements.
`BEGIN IMMEDIATE TRANSACTION` acquires the database write lock up front —
or rejects with `SQLITE_BUSY` when another connection holds it — and the
lock is held until `COMMIT` releases it.  Each worker is a coroutine
stepping through `getNextJob`'s statements; the shared state is the table
and the write lock. -/

/-- Where one worker stands between the `await` points of `getNextJob`. -/
inductive Phase where
  | ready
  | inTxn
  | selected (job : JobRow)
  | emptyCommit
  | updated (job : JobRow)
  | done (res : Except String (Option (String × Json)))

/-- Shared table and lock, plus each worker's phase (worker = list index). -/
structure Sys where
  rows : List JobRow
  lock : Option Nat
  procs : List Phase

/-- What `getNextJob` resolves to after its COMMIT: `JSON.parse` the
selected job's stored params.  When the text is not JSON the parse throws
and the `catch` block's `ROLLBACK` — run outside the already-committed
transaction — fails with its own error, which escapes. -/
def claimResult (job : JobRow) : Except String (Option (String × Json)) :=
  match jsonParse job.params with
  | some p => Except.ok (some (job.id, p))
  | none => Except.error rollbackNoTxnMsg

/-- One interleaving step: some worker executes its next statement. -/
inductive StepC : Sys → Sys → Prop where
  | begin_ok (i : Nat) (s : Sys) (h : s.procs[i]? = some Phase.ready)
      (hl : s.lock = none) :
      StepC s { s with lock := some i, procs := s.procs.set i Phase.inTxn }
  | begin_busy (i : Nat) (s : Sys) (h : s.procs[i]? = some Phase.ready)
      (hl : s.lock ≠ none) :
      StepC s { s with procs := s.procs.set i (Phase.done (Except.error rollbackNoTxnMsg)) }
  | select_hit (i : Nat) (job : JobRow) (s : Sys) (h : s.procs[i]? = some Phase.inTxn)
      (hsel : selectOldestQueued s.rows = some job) :
      StepC s { s with procs := s.procs.set i (Phase.selected job) }
  | select_miss (i : Nat) (s : Sys) (h : s.procs[i]? = some Phase.inTxn)
      (hsel : selectOldestQueued s.rows = none) :
      StepC s { s with procs := s.procs.set i Phase.emptyCommit }
  | update_run (i : Nat) (job : JobRow) (now : Nat) (s : Sys)
      (h : s.procs[i]? = some (Phase.selected job)) :
      StepC s { rows := markRunning job.id now s.rows, lock := s.lock,
                procs := s.procs.set i (Phase.updated job) }
  | commit_empty (i : Nat) (s : Sys) (h : s.procs[i]? = some Phase.emptyCommit) :
      StepC s { s with lock := none, procs := s.procs.set i (Phase.done (Except.ok none)) }
  | commit_run (i : Nat) (job : JobRow) (s : Sys)
      (h : s.procs[i]? = some (Phase.updated job)) :
      StepC s { s with lock := none, procs := s.procs.set i (Phase.done (claimResult job)) }

/-- Phases executed while holding the write lock. -/
def txnPhase : Phase → Prop
  | .inTxn => True
  | .selected _ => True
  | .emptyCommit => True
  | .updated _ => True
  | _ => False

/-- Phases in which a worker has observed (or already returned) the job
with this id. -/
def Rphase (id : String) : Phase → Prop
  | .selected job => job.id = id
  | .updated job => job.id = id
  | .done (Except.ok (some (jid, _))) => jid = id
  | _ => False

/-- Worker `i`'s claim has resolved with the job with this id. -/
def returnsJob (id : String) (ph : Phase) : Prop :=
  ∃ p, ph = Phase.done (Except.ok (some (id, p)))

/-- Inductive invariant of the interleaving system. -/
def SysInv (s : Sys) : Prop :=
  NodupIds s.rows ∧
  (∀ (i : Nat) (ph : Phase), s.procs[i]? = some ph → txnPhase ph → s.lock = some i) ∧
  (∀ (i : Nat) (job : JobRow), s.procs[i]? = some (Phase.selected job) →
      job ∈ s.rows ∧ job.status = "queued") ∧
  (∀ (i : Nat) (job : JobRow), s.procs[i]? = some (Phase.updated job) →
      statusOf job.id s.rows = some "running") ∧
  (∀ (i : Nat) (id : String) (p : Json),
      s.procs[i]? = some (Phase.done (Except.ok (some (id, p)))) →
      statusOf id s.rows = some "running") ∧
  (∀ (id : String) (i j : Nat) (phi phj : Phase),
      s.procs[i]? = some phi → s.procs[j]? = some phj →
      Rphase id phi → Rphase id phj → i = j)

theorem procs_set_get {l : List Phase} {i : Nat} {a : Phase} (hi : l[i]? = some a)
    (b : Phase) (j : Nat) :
    (l.set i b)[j]? = if j = i then some b else l[j]? := by
  by_cases hj : j = i
  · subst hj
    have hlt : j < l.length := by
      by_contra hc
      rw [List.getElem?_eq_none (by omega)] at hi
      exact absurd hi (by simp)
    rw [List.getElem?_set_self hlt]
    simp
  · rw [List.getElem?_set_ne (fun hc => hj hc.symm)]
    simp [hj]

theorem rphase_cases {id : String} {ph : Phase} (h : Rphase id ph) :
    (∃ job, ph = Phase.selected job ∧ job.id = id) ∨
    (∃ job, ph = Phase.updated job ∧ job.id = id) ∨
    (∃ p, ph = Phase.done (Except.ok (some (id, p)))) := by
  cases ph with
  | selected job => exact Or.inl ⟨job, rfl, h⟩
  | updated job => exact Or.inr (Or.inl ⟨job, rfl, h⟩)
  | done res =>
    cases res with
    | error e => exact absurd h (by simp [Rphase])
    | ok o =>
      cases o with
      | none => exact absurd h (by simp [Rphase])
      | some pr =>
        obtain ⟨jid, p⟩ := pr
        have hjid : jid = id := h
        subst hjid
        exact Or.inr (Or.inr ⟨p, rfl⟩)
  | ready => exact absurd h (by simp [Rphase])
  | inTxn => exact absurd h (by simp [Rphase])
  | emptyCommit => exact absurd h (by simp [Rphase])

theorem statusOf_markRunning_keep {id jid : String} {now : Nat} {rows : List JobRow}
    (h : statusOf id rows = some "running") :
    statusOf id (markRunning jid now rows) = some "running" := by
  unfold statusOf at h
  cases hf : rows.find? (fun r => r.id = id) with
  | none => rw [hf] at h; exact absurd h (by simp)
  | some r =>
    rw [hf] at h
    have hr : r.status = "running" := by simpa using h
    show statusOf id (rows.map (fun r =>
      if r.id = jid then { r with status := "running", processedAt := some now } else r))
      = some "running"
    rw [statusOf_update_eq id jid
      (fun r => { r with status := "running", processedAt := some now }) (fun r => rfl) rows,
      hf]
    by_cases hj : r.id = jid <;> simp [hj, hr]

theorem claimResult_ok_some {job : JobRow} {id : String} {p : Json}
    (h : claimResult job = Except.ok (some (id, p))) :
    job.id = id ∧ jsonParse job.params = some p := by
  unfold claimResult at h
  cases hp : jsonParse job.params with
  | none => rw [hp] at h; exact absurd h (by simp)
  | some p2 =>
    rw [hp] at h
    simp only [Except.ok.injEq, Option.some.injEq, Prod.mk.injEq] at h
    exact ⟨h.1, congrArg some h.2⟩

theorem sysInv_step {s s2 : Sys} (hinv : SysInv s) (hstep : StepC s s2) : SysInv s2 := by
  obtain ⟨hndI, hlockI, hselI, hupdI, hdoneI, honceI⟩ := hinv
  cases hstep with
  | begin_ok i s h hl =>
    refine ⟨hndI, ?_, ?_, ?_, ?_, ?_⟩
    · intro j ph hj htxn
      rw [procs_set_get h _ j] at hj
      by_cases hji : j = i
      · subst hji; rfl
      · rw [if_neg hji] at hj
        have := hlockI j ph hj htxn
        rw [hl] at this
        exact absurd this (by simp)
    · intro j job hj
      rw [procs_set_get h _ j] at hj
      by_cases hji : j = i
      · rw [if_pos hji] at hj; exact absurd hj (by simp)
      · rw [if_neg hji] at hj; exact hselI j job hj
    · intro j job hj
      rw [procs_set_get h _ j] at hj
      by_cases hji : j = i
      · rw [if_pos hji] at hj; exact absurd hj (by simp)
      · rw [if_neg hji] at hj; exact hupdI j job hj
    · intro j id p hj
      rw [procs_set_get h _ j] at hj
      by_cases hji : j = i
      · rw [if_pos hji] at hj; exact absurd hj (by simp)
      · rw [if_neg hji] at hj; exact hdoneI j id p hj
    · intro id j k phj phk hj hk hrj hrk
      rw [procs_set_get h _ j] at hj
      rw [procs_set_get h _ k] at hk
      by_cases hji : j = i
      · rw [if_pos hji] at hj
        cases hj
        exact absurd hrj (by simp [Rphase])
      · rw [if_neg hji] at hj
        by_cases hki : k = i
        · rw [if_pos hki] at hk
          cases hk
          exact absurd hrk (by simp [Rphase])
        · rw [if_neg hki] at hk
          exact honceI id j k phj phk hj hk hrj hrk
  | begin_busy i s h hl =>
    refine ⟨hndI, ?_, ?_, ?_, ?_, ?_⟩
    · intro j ph hj htxn
      rw [procs_set_get h _ j] at hj
      by_cases hji : j = i
      · rw [if_pos hji] at hj
        cases hj
        exact absurd htxn (by simp [txnPhase])
      · rw [if_neg hji] at hj
        exact hlockI j ph hj htxn
    · intro j job hj
      rw [procs_set_get h _ j] at hj
      by_cases hji : j = i
      · rw [if_pos hji] at hj; exact absurd hj (by simp)
      · rw [if_neg hji] at hj; exact hselI j job hj
    · intro j job hj
      rw [procs_set_get h _ j] at hj
      by_cases hji : j = i
      · rw [if_pos hji] at hj; exact absurd hj (by simp)
      · rw [if_neg hji] at hj; exact hupdI j job hj
    · intro j id p hj
      rw [procs_set_get h _ j] at hj
      by_cases hji : j = i
      · rw [if_pos hji] at hj; exact absurd hj (by simp)
      · rw [if_neg hji] at hj; exact hdoneI j id p hj
    · intro id j k phj phk hj hk hrj hrk
      rw [procs_set_get h _ j] at hj
      rw [procs_set_get h _ k] at hk
      by_cases hji : j = i
      · rw [if_pos hji] at hj
        cases hj
        exact absurd hrj (by simp [Rphase])
      · rw [if_neg hji] at hj
        by_cases hki : k = i
        · rw [if_pos hki] at hk
          cases hk
          exact absurd hrk (by simp [Rphase])
        · rw [if_neg hki] at hk
          exact honceI id j k phj phk hj hk hrj hrk
  | select_hit i job s h hfound =>
    have hjob := selectOldestQueued_some hfound
    have hqstat : statusOf job.id s.rows = some "queued" := by
      rw [statusOf_of_mem_nodup hndI hjob.1, hjob.2.1]
    refine ⟨hndI, ?_, ?_, ?_, ?_, ?_⟩
    · intro j ph hj htxn
      rw [procs_set_get h _ j] at hj
      by_cases hji : j = i
      · subst hji; exact hlockI j Phase.inTxn h trivial
      · rw [if_neg hji] at hj
        exact hlockI j ph hj htxn
    · intro j job2 hj
      rw [procs_set_get h _ j] at hj
      by_cases hji : j = i
      · rw [if_pos hji] at hj
        cases hj
        exact ⟨hjob.1, hjob.2.1⟩
      · rw [if_neg hji] at hj; exact hselI j job2 hj
    · intro j job2 hj
      rw [procs_set_get h _ j] at hj
      by_cases hji : j = i
      · rw [if_pos hji] at hj; exact absurd hj (by simp)
      · rw [if_neg hji] at hj; exact hupdI j job2 hj
    · intro j id p hj
      rw [procs_set_get h _ j] at hj
      by_cases hji : j = i
      · rw [if_pos hji] at hj; exact absurd hj (by simp)
      · rw [if_neg hji] at hj; exact hdoneI j id p hj
    · intro id j k phj phk hj hk hrj hrk
      rw [procs_set_get h _ j] at hj
      rw [procs_set_get h _ k] at hk
      by_cases hji : j = i
      · subst hji
        rw [if_pos rfl] at hj
        cases hj
        by_cases hkj : k = j
        · exact hkj.symm
        · exfalso
          rw [if_neg (by exact fun hc => hkj (hc.trans rfl))] at hk
          have hid : job.id = id := hrj
          rcases rphase_cases hrk with ⟨job2, hph, hid2⟩ | ⟨job2, hph, hid2⟩ | ⟨p, hph⟩
          · subst hph
            have h1 := hlockI k (Phase.selected job2) hk trivial
            have h2 := hlockI j Phase.inTxn h trivial
            rw [h1] at h2
            exact hkj (Option.some.inj h2)
          · subst hph
            have hrun := hupdI k job2 hk
            rw [hid2, ← hid, hqstat] at hrun
            exact absurd (Option.some.inj hrun) (by decide)
          · subst hph
            have hrun := hdoneI k id p hk
            rw [← hid, hqstat] at hrun
            exact absurd (Option.some.inj hrun) (by decide)
      · rw [if_neg hji] at hj
        by_cases hki : k = i
        · subst hki
          rw [if_pos rfl] at hk
          cases hk
          exfalso
          have hid : job.id = id := hrk
          rcases rphase_cases hrj with ⟨job2, hph, hid2⟩ | ⟨job2, hph, hid2⟩ | ⟨p, hph⟩
          · subst hph
            have h1 := hlockI j (Phase.selected job2) hj trivial
            have h2 := hlockI k Phase.inTxn h trivial
            rw [h1] at h2
            exact hji (Option.some.inj h2)
          · subst hph
            have hrun := hupdI j job2 hj
            rw [hid2, ← hid, hqstat] at hrun
            exact absurd (Option.some.inj hrun) (by decide)
          · subst hph
            have hrun := hdoneI j id p hj
            rw [← hid, hqstat] at hrun
            exact absurd (Option.some.inj hrun) (by decide)
        · rw [if_neg hki] at hk
          exact honceI id j k phj phk hj hk hrj hrk
  | select_miss i s h hfound =>
    refine ⟨hndI, ?_, ?_, ?_, ?_, ?_⟩
    · intro j ph hj htxn
      rw [procs_set_get h _ j] at hj
      by_cases hji : j = i
      · subst hji; exact hlockI j Phase.inTxn h trivial
      · rw [if_neg hji] at hj
        exact hlockI j ph hj htxn
    · intro j job hj
      rw [procs_set_get h _ j] at hj
      by_cases hji : j = i
      · rw [if_pos hji] at hj; exact absurd hj (by simp)
      · rw [if_neg hji] at hj; exact hselI j job hj
    · intro j job hj
      rw [procs_set_get h _ j] at hj
      by_cases hji : j = i
      · rw [if_pos hji] at hj; exact absurd hj (by simp)
      · rw [if_neg hji] at hj; exact hupdI j job hj
    · intro j id p hj
      rw [procs_set_get h _ j] at hj
      by_cases hji : j = i
      · rw [if_pos hji] at hj; exact absurd hj (by simp)
      · rw [if_neg hji] at hj; exact hdoneI j id p hj
    · intro id j k phj phk hj hk hrj hrk
      rw [procs_set_get h _ j] at hj
      rw [procs_set_get h _ k] at hk
      by_cases hji : j = i
      · rw [if_pos hji] at hj
        cases hj
        exact absurd hrj (by simp [Rphase])
      · rw [if_neg hji] at hj
        by_cases hki : k = i
        · rw [if_pos hki] at hk
          cases hk
          exact absurd hrk (by simp [Rphase])
        · rw [if_neg hki] at hk
          exact honceI id j k phj phk hj hk hrj hrk
  | update_run i job now s h =>
    have hlocki := hlockI i (Phase.selected job) h trivial
    have hjob := hselI i job h
    refine ⟨nodupIds_markRunning job.id now s.rows hndI, ?_, ?_, ?_, ?_, ?_⟩
    · intro j ph hj htxn
      rw [procs_set_get h _ j] at hj
      by_cases hji : j = i
      · subst hji; exact hlocki
      · rw [if_neg hji] at hj
        exact hlockI j ph hj htxn
    · intro j job2 hj
      rw [procs_set_get h _ j] at hj
      by_cases hji : j = i
      · rw [if_pos hji] at hj; exact absurd hj (by simp)
      · rw [if_neg hji] at hj
        exfalso
        have h1 := hlockI j (Phase.selected job2) hj trivial
        rw [h1] at hlocki
        exact hji (Option.some.inj hlocki)
    · intro j job2 hj
      rw [procs_set_get h _ j] at hj
      by_cases hji : j = i
      · rw [if_pos hji] at hj
        cases hj
        exact (statusOf_markRunning_self job.id now s.rows ⟨job, hjob.1, rfl⟩).1
      · rw [if_neg hji] at hj
        exfalso
        have h1 := hlockI j (Phase.updated job2) hj trivial
        rw [h1] at hlocki
        exact hji (Option.some.inj hlocki)
    · intro j id p hj
      rw [procs_set_get h _ j] at hj
      by_cases hji : j = i
      · rw [if_pos hji] at hj; exact absurd hj (by simp)
      · rw [if_neg hji] at hj
        exact statusOf_markRunning_keep (hdoneI j id p hj)
    · intro id j k phj phk hj hk hrj hrk
      rw [procs_set_get h _ j] at hj
      rw [procs_set_get h _ k] at hk
      by_cases hji : j = i
      · subst hji
        rw [if_pos rfl] at hj
        cases hj
        by_cases hkj : k = j
        · exact hkj.symm
        · rw [if_neg (by exact fun hc => hkj (hc.trans rfl))] at hk
          have hid : job.id = id := hrj
          exact (honceI id j k (Phase.selected job) phk h hk hid hrk)
      · rw [if_neg hji] at hj
        by_cases hki : k = i
        · subst hki
          rw [if_pos rfl] at hk
          cases hk
          have hid : job.id = id := hrk
          exact (honceI id j k phj (Phase.selected job) hj h hrj hid)
        · rw [if_neg hki] at hk
          exact honceI id j k phj phk hj hk hrj hrk
  | commit_empty i s h =>
    have hlocki := hlockI i Phase.emptyCommit h trivial
    refine ⟨hndI, ?_, ?_, ?_, ?_, ?_⟩
    · intro j ph hj htxn
      rw [procs_set_get h _ j] at hj
      by_cases hji : j = i
      · rw [if_pos hji] at hj
        cases hj
        exact absurd htxn (by simp [txnPhase])
      · rw [if_neg hji] at hj
        exfalso
        have h1 := hlockI j ph hj htxn
        rw [h1] at hlocki
        exact hji (Option.some.inj hlocki)
    · intro j job hj
      rw [procs_set_get h _ j] at hj
      by_cases hji : j = i
      · rw [if_pos hji] at hj; exact absurd hj (by simp)
      · rw [if_neg hji] at hj; exact hselI j job hj
    · intro j job hj
      rw [procs_set_get h _ j] at hj
      by_cases hji : j = i
      · rw [if_pos hji] at hj; exact absurd hj (by simp)
      · rw [if_neg hji] at hj; exact hupdI j job hj
    · intro j id p hj
      rw [procs_set_get h _ j] at hj
      by_cases hji : j = i
      · rw [if_pos hji] at hj; exact absurd hj (by simp)
      · rw [if_neg hji] at hj; exact hdoneI j id p hj
    · intro id j k phj phk hj hk hrj hrk
      rw [procs_set_get h _ j] at hj
      rw [procs_set_get h _ k] at hk
      by_cases hji : j = i
      · rw [if_pos hji] at hj
        cases hj
        exact absurd hrj (by simp [Rphase])
      · rw [if_neg hji] at hj
        by_cases hki : k = i
        · rw [if_pos hki] at hk
          cases hk
          exact absurd hrk (by simp [Rphase])
        · rw [if_neg hki] at hk
          exact honceI id j k phj phk hj hk hrj hrk
  | commit_run i job s h =>
    have hlocki := hlockI i (Phase.updated job) h trivial
    refine ⟨hndI, ?_, ?_, ?_, ?_, ?_⟩
    · intro j ph hj htxn
      rw [procs_set_get h _ j] at hj
      by_cases hji : j = i
      · rw [if_pos hji] at hj
        cases hj
        exact absurd htxn (by simp [txnPhase])
      · rw [if_neg hji] at hj
        exfalso
        have h1 := hlockI j ph hj htxn
        rw [h1] at hlocki
        exact hji (Option.some.inj hlocki)
    · intro j job2 hj
      rw [procs_set_get h _ j] at hj
      by_cases hji : j = i
      · rw [if_pos hji] at hj; exact absurd hj (by simp)
      · rw [if_neg hji] at hj; exact hselI j job2 hj
    · intro j job2 hj
      rw [procs_set_get h _ j] at hj
      by_cases hji : j = i
      · rw [if_pos hji] at hj; exact absurd hj (by simp)
      · rw [if_neg hji] at hj; exact hupdI j job2 hj
    · intro j id p hj
      rw [procs_set_get h _ j] at hj
      by_cases hji : j = i
      · rw [if_pos hji] at hj
        simp only [Option.some.injEq, Phase.done.injEq] at hj
        obtain ⟨hid, _⟩ := claimResult_ok_some hj
        rw [← hid]
        exact hupdI i job h
      · rw [if_neg hji] at hj
        exact hdoneI j id p hj
    · intro id j k phj phk hj hk hrj hrk
      rw [procs_set_get h _ j] at hj
      rw [procs_set_get h _ k] at hk
      by_cases hji : j = i
      · subst hji
        rw [if_pos rfl] at hj
        cases hj
        by_cases hkj : k = j
        · exact hkj.symm
        · rw [if_neg (by exact fun hc => hkj (hc.trans rfl))] at hk
          rcases rphase_cases hrj with ⟨job2, hph, _⟩ | ⟨job2, hph, _⟩ | ⟨p, hph⟩
          · exact absurd hph (by simp)
          · exact absurd hph (by simp)
          · have hcr : claimResult job = Except.ok (some (id, p)) := by
              have := Phase.done.inj hph
              exact this
            have hid : job.id = id := (claimResult_ok_some hcr).1
            exact honceI id j k (Phase.updated job) phk h hk hid hrk
      · rw [if_neg hji] at hj
        by_cases hki : k = i
        · subst hki
          rw [if_pos rfl] at hk
          cases hk
          rcases rphase_cases hrk with ⟨job2, hph, _⟩ | ⟨job2, hph, _⟩ | ⟨p, hph⟩
          · exact absurd hph (by simp)
          · exact absurd hph (by simp)
          · have hcr : claimResult job = Except.ok (some (id, p)) := by
              have := Phase.done.inj hph
              exact this
            have hid : job.id = id := (claimResult_ok_some hcr).1
            exact honceI id j k phj (Phase.updated job) hj h hrj hid
        · rw [if_neg hki] at hk
          exact honceI id j k phj phk hj hk hrj hrk

/-- The invariant holds in the initial state: any number of workers about
to call `getNextJob` on a table with unique ids, lock free. -/
theorem sysInv_init (rows0 : List JobRow) (n : Nat) (hnd : NodupIds rows0) :
    SysInv { rows := rows0, lock := none, procs := List.replicate n Phase.ready } := by
  have hrep : ∀ (i : Nat) (ph : Phase),
      (List.replicate n Phase.ready)[i]? = some ph → ph = Phase.ready := by
    intro i ph h
    rw [List.getElem?_replicate] at h
    by_cases hi : i < n
    · rw [if_pos hi] at h; exact (Option.some.inj h).symm
    · rw [if_neg hi] at h; exact absurd h (by simp)
  refine ⟨hnd, ?_, ?_, ?_, ?_, ?_⟩
  · intro i ph h htxn
    rw [hrep i ph h] at htxn
    exact absurd htxn (by simp [txnPhase])
  · intro i job h
    have := hrep i _ h
    simp at this
  · intro i job h
    have := hrep i _ h
    simp at this
  · intro i id p h
    have := hrep i _ h
    simp at this
  · intro id i j phi phj hi hj hri _
    rw [hrep i phi hi] at hri
    exact absurd hri (by simp [Rphase])

/-- The invariant is preserved along any interleaved execution. -/
theorem sysInv_steps {s1 s2 : Sys} (h : Relation.ReflTransGen StepC s1 s2)
    (hinv : SysInv s1) : SysInv s2 := by
  induction h with
  | refl => exact hinv
  | tail _ hstep ih => exact sysInv_step ih hstep

/-! ### Batched enqueues followed by claims (one worker, no contention) -/

/-- Enqueue a batch in order; the clock advances between calls
(`CURRENT_TIMESTAMP` is nondecreasing across statements).  The first
insert error aborts the batch, as `addJobToQueue` does not catch. -/
def enqueueSeq : List (String × Json) → Nat → List JobRow → Except String (List JobRow)
  | [], _, rows => Except.ok rows
  | (id, p) :: rest, t, rows =>
    match addJobToQueue id p t rows with
    | (Except.ok _, rows2) => enqueueSeq rest (t + 1) rows2
    | (Except.error e, _) => Except.error e

/-- The rows such a batch appends: all `queued`, timestamps `t, t+1, …`. -/
def queuedRows : List (String × Json) → Nat → List JobRow
  | [], _ => []
  | (id, p) :: rest, t =>
    { id := id, params := jsonStringify p, status := "queued",
      createdAt := t, processedAt := none, error := none } :: queuedRows rest (t + 1)

/-- Claim `n` times in a row with no contention, collecting the results. -/
def claimSeq :
    Nat → Nat → List JobRow → List (Except String (Option (String × Json))) × List JobRow
  | 0, _, rows => ([], rows)
  | n + 1, t, rows =>
    let r := getNextJob FailPoint.noFail t rows
    let rest := claimSeq n (t + 1) r.2
    (r.1 :: rest.1, rest.2)

theorem map_update_noMatch {l : List JobRow} {id : String} (g : JobRow → JobRow)
    (h : ∀ r ∈ l, r.id ≠ id) : l.map (fun r => if r.id = id then g r else r) = l := by
  induction l with
  | nil => rfl
  | cons r t ih =>
    rw [List.map_cons, if_neg (h r (List.mem_cons_self r t)),
      ih (fun x hx => h x (List.mem_cons_of_mem r hx))]

theorem queuedRows_mapId (L : List (String × Json)) (t : Nat) :
    (queuedRows L t).map JobRow.id = L.map Prod.fst := by
  induction L generalizing t with
  | nil => rfl
  | cons hd rest ih =>
    obtain ⟨id, p⟩ := hd
    simp [queuedRows, ih]

theorem queuedRows_status (L : List (String × Json)) (t : Nat) :
    ∀ r ∈ queuedRows L t, r.status = "queued" := by
  induction L generalizing t with
  | nil => intro r hr; simp [queuedRows] at hr
  | cons hd rest ih =>
    obtain ⟨id, p⟩ := hd
    intro r hr
    rcases List.mem_cons.mp hr with h1 | h1
    · rw [h1]
    · exact ih (t + 1) r h1

theorem queuedRows_createdAt (L : List (String × Json)) (t : Nat) :
    ∀ r ∈ queuedRows L t, t ≤ r.createdAt := by
  induction L generalizing t with
  | nil => intro r hr; simp [queuedRows] at hr
  | cons hd rest ih =>
    obtain ⟨id, p⟩ := hd
    intro r hr
    rcases List.mem_cons.mp hr with h1 | h1
    · rw [h1]
    · have := ih (t + 1) r h1
      omega

theorem enqueueSeq_spec (L : List (String × Json)) (t : Nat) (rows : List JobRow)
    (hfresh : ∀ id ∈ L.map Prod.fst, id ∉ rows.map JobRow.id)
    (hnd : (L.map Prod.fst).Nodup) :
    enqueueSeq L t rows = Except.ok (rows ++ queuedRows L t) := by
  induction L generalizing t rows with
  | nil => simp [enqueueSeq, queuedRows]
  | cons hd rest ih =>
    obtain ⟨id, p⟩ := hd
    have hid : id ∉ rows.map JobRow.id := hfresh id (by simp)
    have hany : rows.any (fun r => r.id = id) = false := by
      rw [List.any_eq_false]
      intro r hr
      simp only [decide_eq_true_eq]
      intro hc
      exact hid (hc ▸ List.mem_map_of_mem JobRow.id hr)
    have hfresh2 : ∀ id2 ∈ rest.map Prod.fst,
        id2 ∉ (rows ++ [(⟨id, jsonStringify p, "queued", t, none, none⟩ : JobRow)]).map
          JobRow.id := by
      intro id2 h2
      rw [List.map_append]
      intro hc
      rcases List.mem_append.mp hc with h3 | h3
      · exact hfresh id2 (by simp [h2]) h3
      · simp only [List.map_cons, List.map_nil, List.mem_singleton] at h3
        have h4 : id ∈ rest.map Prod.fst := h3 ▸ h2
        exact (List.nodup_cons.mp (by simpa using hnd)).1 h4
    have hnd2 : (rest.map Prod.fst).Nodup := (List.nodup_cons.mp (by simpa using hnd)).2
    show (match addJobToQueue id p t rows with
      | (Except.ok _, rows2) => enqueueSeq rest (t + 1) rows2
      | (Except.error e, _) => Except.error e) = _
    unfold addJobToQueue
    rw [hany]
    simp only [Bool.false_eq_true, if_false]
    show enqueueSeq rest (t + 1)
      (rows ++ [(⟨id, jsonStringify p, "queued", t, none, none⟩ : JobRow)]) = _
    rw [ih (t + 1) _ hfresh2 hnd2]
    rw [show queuedRows ((id, p) :: rest) t
      = (⟨id, jsonStringify p, "queued", t, none, none⟩ : JobRow)
          :: queuedRows rest (t + 1) from rfl]
    simp

theorem foldl_min_keep (t : List JobRow) (b : JobRow)
    (h : ∀ r ∈ t, ¬ r.createdAt < b.createdAt) :
    t.foldl (fun acc r => match acc with
      | none => some r
      | some b => if r.createdAt < b.createdAt then some r else some b) (some b)
      = some b := by
  induction t with
  | nil => rfl
  | cons r t2 ih =>
    rw [List.foldl_cons,
      show (match some b with
        | none => some r
        | some b => if r.createdAt < b.createdAt then some r else some b)
        = some b by simp [h r (List.mem_cons_self r t2)]]
    exact ih (fun x hx => h x (List.mem_cons_of_mem r hx))

theorem selectOldestQueued_shape (pre Q2 : List JobRow) (q0 : JobRow)
    (hpre : ∀ r ∈ pre, r.status ≠ "queued") (hq0 : q0.status = "queued")
    (hQ : ∀ r ∈ Q2, r.status = "queued")
    (hge : ∀ r ∈ Q2, ¬ r.createdAt < q0.createdAt) :
    selectOldestQueued (pre ++ q0 :: Q2) = some q0 := by
  unfold selectOldestQueued
  rw [List.filter_append,
    show pre.filter (fun r => r.status = "queued") = [] from
      List.filter_eq_nil_iff.mpr (fun r hr => by simpa using hpre r hr),
    show (q0 :: Q2).filter (fun r => r.status = "queued") = q0 :: Q2 from
      List.filter_eq_self.mpr (fun r hr => by
        rcases List.mem_cons.mp hr with h1 | h1
        · simp [h1, hq0]
        · simp [hQ r h1]),
    List.nil_append, List.foldl_cons]
  exact foldl_min_keep Q2 q0 hge

theorem nodup_mid_ne (pre Q2 : List JobRow) (q0 : JobRow)
    (h : NodupIds (pre ++ q0 :: Q2)) :
    (∀ r ∈ pre, r.id ≠ q0.id) ∧ (∀ r ∈ Q2, r.id ≠ q0.id) := by
  unfold NodupIds at h
  rw [List.map_append, List.map_cons, List.nodup_append] at h
  obtain ⟨h1, h2, h3⟩ := h
  constructor
  · intro r hr hc
    exact h3 (List.mem_map_of_mem JobRow.id hr) (by simp [hc])
  · intro r hr hc
    exact (List.nodup_cons.mp h2).1 (hc ▸ List.mem_map_of_mem JobRow.id hr)

theorem claim_step (pre Q2 : List JobRow) (q0 : JobRow) (p0 : Json) (t : Nat)
    (hpre : ∀ r ∈ pre, r.status ≠ "queued") (hq0 : q0.status = "queued")
    (hparams : jsonParse q0.params = some p0)
    (hQ : ∀ r ∈ Q2, r.status = "queued")
    (hge : ∀ r ∈ Q2, ¬ r.createdAt < q0.createdAt)
    (hnodup : NodupIds (pre ++ q0 :: Q2)) :
    getNextJob FailPoint.noFail t (pre ++ q0 :: Q2)
      = (Except.ok (some (q0.id, p0)),
         pre ++ ({ q0 with status := "running", processedAt := some t } : JobRow) :: Q2) := by
  have hsel := selectOldestQueued_shape pre Q2 q0 hpre hq0 hQ hge
  rw [getNextJob_noFail_found t hsel hparams]
  obtain ⟨hne1, hne2⟩ := nodup_mid_ne pre Q2 q0 hnodup
  unfold markRunning
  rw [List.map_append, List.map_cons,
    map_update_noMatch _ hne1, map_update_noMatch _ hne2, if_pos rfl]

theorem claimSeq_spec (L : List (String × Json)) (tq : Nat) (pre : List JobRow) (t : Nat)
    (hpre : ∀ r ∈ pre, r.status ≠ "queued")
    (hnd : NodupIds (pre ++ queuedRows L tq)) :
    (claimSeq (L.length + 1) t (pre ++ queuedRows L tq)).1
      = L.map (fun kv => Except.ok (some kv)) ++ [Except.ok none] := by
  induction L generalizing tq pre t with
  | nil =>
    rw [show queuedRows [] tq = [] from rfl, List.append_nil]
    show (getNextJob FailPoint.noFail t pre).1
      :: (claimSeq 0 (t + 1) (getNextJob FailPoint.noFail t pre).2).1
      = [] ++ [Except.ok none]
    rw [getNextJob_noFail_empty t pre hpre]
    rfl
  | cons hd rest ih =>
    obtain ⟨id0, p0⟩ := hd
    rw [show queuedRows ((id0, p0) :: rest) tq
      = (⟨id0, jsonStringify p0, "queued", tq, none, none⟩ : JobRow)
          :: queuedRows rest (tq + 1) from rfl] at hnd ⊢
    have hstep := claim_step pre (queuedRows rest (tq + 1))
      (⟨id0, jsonStringify p0, "queued", tq, none, none⟩ : JobRow) p0 t
      hpre rfl (jsonParse_jsonStringify p0)
      (queuedRows_status rest (tq + 1))
      (fun r hr => by have := queuedRows_createdAt rest (tq + 1) r hr; simp; omega)
      hnd
    show (getNextJob FailPoint.noFail t _).1
      :: (claimSeq (rest.length + 1) (t + 1) (getNextJob FailPoint.noFail t _).2).1 = _
    rw [hstep]
    have hpre2 : ∀ r ∈ pre ++ [({ (⟨id0, jsonStringify p0, "queued", tq, none, none⟩ : JobRow)
        with status := "running", processedAt := some t } : JobRow)], r.status ≠ "queued" := by
      intro r hr
      rcases List.mem_append.mp hr with h1 | h1
      · exact hpre r h1
      · rw [List.mem_singleton.mp h1]
        show "running" ≠ "queued"
        decide
    have hnd2 : NodupIds ((pre ++ [({ (⟨id0, jsonStringify p0, "queued", tq, none,
        none⟩ : JobRow) with status := "running", processedAt := some t } : JobRow)])
        ++ queuedRows rest (tq + 1)) := by
      unfold NodupIds at hnd ⊢
      simp only [List.map_append, List.map_cons, List.map_nil] at hnd ⊢
      simpa using hnd
    have hmain := ih (tq + 1)
      (pre ++ [({ (⟨id0, jsonStringify p0, "queued", tq, none, none⟩ : JobRow)
        with status := "running", processedAt := some t } : JobRow)])
      (t + 1) hpre2 hnd2
    rw [List.append_cons]
    show Except.ok (some (id0, p0))
      :: (claimSeq (rest.length + 1) (t + 1) _).1 = _
    rw [hmain]
    rfl

/-! ### The claims -/

/-- C2: for every store state, `claimNext` (`getNextJob`) returns the
oldest `queued` job, sets its status to `running` and stamps
`processedAt`, and returns its id together with params that deep-equal
the object originally passed to `enqueue` (`addJobToQueue`, which stored
`JSON.stringify` of it); if no queued job exists it returns the null
sentinel and changes nothing. -/
theorem C2_claimNext_oldest_roundtrip (rows : List JobRow) (now : Nat) :
    ((∀ r ∈ rows, r.status ≠ "queued") →
      getNextJob FailPoint.noFail now rows = (Except.ok none, rows)) ∧
    (∀ job p, selectOldestQueued rows = some job → job.params = jsonStringify p →
      job ∈ rows ∧ job.status = "queued" ∧
      (∀ r ∈ rows, r.status = "queued" → job.createdAt ≤ r.createdAt) ∧
      getNextJob FailPoint.noFail now rows
        = (Except.ok (some (job.id, p)), markRunning job.id now rows) ∧
      statusOf job.id (markRunning job.id now rows) = some "running" ∧
      processedAtOf job.id (markRunning job.id now rows) = some (some now)) := by
  constructor
  · exact fun h => getNextJob_noFail_empty now rows h
  · intro job p hsel hparams
    obtain ⟨hmem, hq, hold⟩ := selectOldestQueued_some hsel
    have hparse : jsonParse job.params = some p := by
      rw [hparams]
      exact jsonParse_jsonStringify p
    have hms := statusOf_markRunning_self job.id now rows ⟨job, hmem, rfl⟩
    exact ⟨hmem, hq, hold, getNextJob_noFail_found now hsel hparse, hms.1, hms.2⟩

/-- The params object used in the C2 witness: nested object with an
array, a string, and numbers. -/
def c2P : Json := Json.obj [("x", Json.arr [Json.num 1, Json.str "s"]), ("y", Json.num (-2))]

/-- The row `addJobToQueue "a" c2P 0` inserts into an empty table. -/
def c2Row : JobRow :=
  { id := "a", params := jsonStringify c2P, status := "queued",
    createdAt := 0, processedAt := none, error := none }

/-- Witness for C2 on a one-row table created by `addJobToQueue`. -/
theorem C2_claimNext_oldest_roundtrip_witness :
    getNextJob FailPoint.noFail 7 [c2Row]
      = (Except.ok (some ("a", c2P)), markRunning "a" 7 [c2Row]) ∧
    statusOf "a" (markRunning "a" 7 [c2Row]) = some "running" := by
  have h := (C2_claimNext_oldest_roundtrip [c2Row] 7).2 c2Row c2P rfl rfl
  exact ⟨h.2.2.2.1, h.2.2.2.2.1⟩

/-- C3 (code bug): when `BEGIN IMMEDIATE TRANSACTION` itself rejects —
which is exactly what transient contention from a conflicting concurrent
exclusive transaction produces (`SQLITE_BUSY`) — the `catch` block runs
`ROLLBACK` with no transaction active, that statement rejects too, and
its error escapes `getNextJob`: the caller gets a rejected promise, not
the null sentinel.  Only errors raised after `BEGIN` succeeded (the
SELECT, UPDATE or COMMIT) are rolled back and downgraded to null as the
claim describes. -/
theorem C3_contention_at_begin_raises (now : Nat) (rows : List JobRow) :
    getNextJob FailPoint.atBegin now rows = (Except.error rollbackNoTxnMsg, rows) ∧
    getNextJob FailPoint.atSelect now rows = (Except.ok none, rows) ∧
    getNextJob FailPoint.atUpdate now rows = (Except.ok none, rows) ∧
    getNextJob FailPoint.atCommit now rows = (Except.ok none, rows) :=
  ⟨getNextJob_atBegin now rows, getNextJob_atSelect now rows,
    getNextJob_atUpdate now rows, getNextJob_atCommit now rows⟩

/-- C5: inserting a second job with an id already present fails with the
unique-constraint error, propagated unmodified, and the table — in
particular the first job's record — is left unmodified. -/
theorem C5_duplicate_id_rejected (id : String) (p : Json) (now : Nat) (rows : List JobRow)
    (h : ∃ r ∈ rows, r.id = id) :
    addJobToQueue id p now rows
      = (Except.error "SQLITE_CONSTRAINT: UNIQUE constraint failed: jobs.id", rows) := by
  obtain ⟨r, hr, hrid⟩ := h
  unfold addJobToQueue
  rw [if_pos (List.any_eq_true.mpr ⟨r, hr, by simp [hrid]⟩)]

/-- Witness for C5: enqueue `"a"` twice; the second insert fails and the
table still holds exactly the first row. -/
theorem C5_duplicate_id_rejected_witness :
    addJobToQueue "a" (Json.num 9) 3 [c2Row]
      = (Except.error "SQLITE_CONSTRAINT: UNIQUE constraint failed: jobs.id", [c2Row]) :=
  C5_duplicate_id_rejected "a" (Json.num 9) 3 [c2Row] ⟨c2Row, by simp, rfl⟩

/-- C7: for an id present in the table, `completeJob` then a status read
yields `completed`; `failJob id e` then a read yields `failed` with
`error = e`. -/
theorem C7_terminal_updates (id e : String) (rows : List JobRow)
    (h : ∃ r ∈ rows, r.id = id) :
    statusOf id (completeJob id rows) = some "completed" ∧
    statusOf id (failJob id e rows) = some "failed" ∧
    errorOf id (failJob id e rows) = some (some e) :=
  ⟨statusOf_complete_self id rows h, (statusOf_fail_self id e rows h).1,
    (statusOf_fail_self id e rows h).2⟩

/-- Witness for C7 on a one-row table. -/
theorem C7_terminal_updates_witness :
    statusOf "a" (completeJob "a" [c2Row]) = some "completed" ∧
    statusOf "a" (failJob "a" "boom" [c2Row]) = some "failed" ∧
    errorOf "a" (failJob "a" "boom" [c2Row]) = some (some "boom") :=
  C7_terminal_updates "a" "boom" [c2Row] ⟨c2Row, by simp, rfl⟩

/-- C8: `completeJob` and `failJob` on an id with no matching row do not
raise (they resolve normally), create no row, and leave the table
unchanged — the store never validates the prior status before applying
these unconditional UPDATEs. -/
theorem C8_unmatched_update_noop (id e : String) (rows : List JobRow)
    (h : ∀ r ∈ rows, r.id ≠ id) :
    completeJob id rows = rows ∧ failJob id e rows = rows :=
  ⟨map_update_noMatch _ h, map_update_noMatch _ h⟩

/-- Witness for C8: updates against an id that does not exist. -/
theorem C8_unmatched_update_noop_witness :
    completeJob "zzz" [c2Row] = [c2Row] ∧ failJob "zzz" "e" [c2Row] = [c2Row] :=
  C8_unmatched_update_noop "zzz" "e" [c2Row]
    (fun r hr => by rw [List.mem_singleton.mp hr]; decide)

/-- C9: when the selected queued job's stored params text is not valid
JSON, `getNextJob` still commits the transition to `running` (the update
persists and no later claim can return this job), but the caller does not
receive the job: `JSON.parse` runs only after COMMIT, the `catch` block's
`ROLLBACK` executes outside any open transaction, and the caller receives
that rollback error instead of the job. -/
theorem C9_bad_params_commits_but_errors (rows : List JobRow) (now : Nat) (job : JobRow)
    (hnd : NodupIds rows)
    (hsel : selectOldestQueued rows = some job)
    (hbad : jsonParse job.params = none) :
    getNextJob FailPoint.noFail now rows
      = (Except.error rollbackNoTxnMsg, markRunning job.id now rows) ∧
    statusOf job.id (markRunning job.id now rows) = some "running" ∧
    (∀ (fp : FailPoint) (t : Nat) (q : Json),
      (getNextJob fp t (markRunning job.id now rows)).1 ≠ Except.ok (some (job.id, q))) := by
  obtain ⟨hmem, hq, _⟩ := selectOldestQueued_some hsel
  refine ⟨getNextJob_noFail_badParams now hsel hbad,
    (statusOf_markRunning_self job.id now rows ⟨job, hmem, rfl⟩).1, ?_⟩
  intro fp t q hc
  have hnd2 : NodupIds (markRunning job.id now rows) := nodupIds_markRunning _ _ _ hnd
  have hret : opReturns job.id (markRunning job.id now rows) (Op.claim fp t) = true := by
    show (match (getNextJob fp t (markRunning job.id now rows)).1 with
      | Except.ok (some (jid, _)) => (jid = job.id : Bool)
      | _ => false) = true
    rw [hc]
    simp
  have hqstat := (opReturns_spec hnd2 hret).1
  rw [(statusOf_markRunning_self job.id now rows ⟨job, hmem, rfl⟩).1] at hqstat
  exact absurd (Option.some.inj hqstat) (by decide)

/-- The queued row with non-JSON params text used in the C9 witness. -/
def c9Row : JobRow :=
  { id := "a", params := "notjson", status := "queued",
    createdAt := 0, processedAt := none, error := none }

/-- Witness for C9 on a one-row table whose stored text is not JSON. -/
theorem C9_bad_params_commits_but_errors_witness :
    getNextJob FailPoint.noFail 4 [c9Row]
      = (Except.error rollbackNoTxnMsg, markRunning "a" 4 [c9Row]) ∧
    statusOf "a" (markRunning "a" 4 [c9Row]) = some "running" := by
  have h := C9_bad_params_commits_but_errors [c9Row] 4 c9Row (by unfold NodupIds; decide) rfl rfl
  exact ⟨h.1, h.2.1⟩

theorem errorOf_complete (id2 id : String) (rows : List JobRow) :
    errorOf id2 (completeJob id rows) = errorOf id2 rows := by
  unfold errorOf completeJob
  rw [find_update id2 id (fun r => { r with status := "completed" }) (fun r => rfl) rows]
  cases hf : rows.find? (fun r => r.id = id2) with
  | none => rfl
  | some r => by_cases hr : r.id = id <;> simp [hr]

/-- C10: `completeJob` changes only the `status` field of the matched row
and `failJob` only `status` and `error`; `id`, `params`, `createdAt`,
`processedAt` of the matched row and every field of every other row are
untouched — in particular `completeJob` after `failJob` leaves the
earlier error text on the now-`completed` job. -/
theorem C10_update_frame (rows : List JobRow) (id e : String) :
    (∀ (i : Nat) (r r2 : JobRow), rows[i]? = some r →
      (completeJob id rows)[i]? = some r2 →
      r2.id = r.id ∧ r2.params = r.params ∧ r2.createdAt = r.createdAt ∧
      r2.processedAt = r.processedAt ∧ r2.error = r.error ∧
      r2.status = (if r.id = id then "completed" else r.status)) ∧
    (∀ (i : Nat) (r r2 : JobRow), rows[i]? = some r →
      (failJob id e rows)[i]? = some r2 →
      r2.id = r.id ∧ r2.params = r.params ∧ r2.createdAt = r.createdAt ∧
      r2.processedAt = r.processedAt ∧
      r2.error = (if r.id = id then some e else r.error) ∧
      r2.status = (if r.id = id then "failed" else r.status)) ∧
    (∀ r ∈ rows, r.id = id →
      statusOf id (completeJob id (failJob id e rows)) = some "completed" ∧
      errorOf id (completeJob id (failJob id e rows)) = some (some e)) := by
  refine ⟨?_, ?_, ?_⟩
  · intro i r r2 hi hi2
    unfold completeJob at hi2
    rw [List.getElem?_map, hi] at hi2
    have hr2 : r2 = if r.id = id then { r with status := "completed" } else r := by
      simpa using hi2.symm
    subst hr2
    by_cases hr : r.id = id <;> simp [hr]
  · intro i r r2 hi hi2
    unfold failJob at hi2
    rw [List.getElem?_map, hi] at hi2
    have hr2 : r2 = if r.id = id
        then { r with status := "failed", error := some e } else r := by
      simpa using hi2.symm
    subst hr2
    by_cases hr : r.id = id <;> simp [hr]
  · intro r hr hrid
    have hpres : ∃ r2 ∈ failJob id e rows, r2.id = id := by
      refine ⟨if r.id = id then { r with status := "failed", error := some e } else r,
        List.mem_map_of_mem _ hr, ?_⟩
      by_cases h2 : r.id = id <;> simp [h2, hrid]
    refine ⟨statusOf_complete_self id _ hpres, ?_⟩
    rw [errorOf_complete]
    exact (statusOf_fail_self id e rows ⟨r, hr, hrid⟩).2

/-- Witness for C10 on a one-row table: fail then complete keeps the
error text on the completed row. -/
theorem C10_update_frame_witness :
    statusOf "a" (completeJob "a" (failJob "a" "boom" [c2Row])) = some "completed" ∧
    errorOf "a" (completeJob "a" (failJob "a" "boom" [c2Row])) = some (some "boom") :=
  (C10_update_frame [c2Row] "a" "boom").2.2 c2Row (by simp) rfl

/-- C6 counterexample: the claim says no operation ever moves a job out of
`completed` or `failed`, but `completeJob` is an unconditional UPDATE:
after `failJob "j" "boom"` the job is `failed`, and a subsequent
`completeJob "j"` moves it out of `failed` into `completed`. -/
theorem C6_counterexample :
    statusOf "j" (failJob "j" "boom" (addJobToQueue "j" Json.null 0 []).2) = some "failed" ∧
    statusOf "j" (completeJob "j" (failJob "j" "boom" (addJobToQueue "j" Json.null 0 []).2))
      = some "completed" :=
  ⟨rfl, rfl⟩

/-- C6 (amended): no operation ever moves a job that has left `queued`
back to `queued`, and a job once returned by a claim is never returned by
any later claim in the trace; however `completeJob`/`failJob` apply
unconditionally, so a job can still move between the two terminal
statuses (and even from `queued` straight to a terminal status). -/
theorem C6_no_requeue_no_rereturn :
    (∀ (rows : List JobRow) (op : Op) (id : String),
      deadId id rows → deadId id (stepOp rows op)) ∧
    (∀ (rows : List JobRow) (op : Op) (ops : List Op) (id : String),
      NodupIds rows → opReturns id rows op = true →
      countReturns id ops (stepOp rows op) = 0) := by
  constructor
  · exact fun rows op id h => deadId_stepOp op h
  · intro rows op ops id hnd hret
    exact countReturns_zero_of_dead ops (nodupIds_step rows op hnd)
      ⟨"running", (opReturns_spec hnd hret).2, by decide⟩

/-- The queued row with JSON text `"1"` used in the C6 witness. -/
def c6Row : JobRow :=
  { id := "a", params := "1", status := "queued",
    createdAt := 0, processedAt := none, error := none }

/-- Witness for C6 (amended): after the claim that returns `"a"`, a trace
of further claims and terminal updates never returns `"a"` again. -/
theorem C6_no_requeue_no_rereturn_witness :
    countReturns "a"
      [Op.claim FailPoint.noFail 4, Op.complete "a", Op.claim FailPoint.noFail 5]
      (stepOp [c6Row] (Op.claim FailPoint.noFail 3)) = 0 :=
  C6_no_requeue_no_rereturn.2 [c6Row] (Op.claim FailPoint.noFail 3)
    [Op.claim FailPoint.noFail 4, Op.complete "a", Op.claim FailPoint.noFail 5] "a"
    (by unfold NodupIds; decide) rfl

/-- C4: enqueuing a batch of jobs with unique ids and then claiming with
no other callers returns the jobs in insertion order (oldest `createdAt`
first), each with params deep-equal to what was enqueued, and one final
"no job available" after the queue is drained. -/
theorem C4_claims_in_insertion_order (L : List (String × Json)) (t0 t1 : Nat)
    (rows1 : List JobRow)
    (hnd : (L.map Prod.fst).Nodup)
    (henq : enqueueSeq L t0 [] = Except.ok rows1) :
    (claimSeq (L.length + 1) t1 rows1).1
      = L.map (fun kv => Except.ok (some kv)) ++ [Except.ok none] := by
  have hspec := enqueueSeq_spec L t0 [] (by simp) hnd
  rw [henq] at hspec
  have hrows : rows1 = queuedRows L t0 := by simpa using hspec
  subst hrows
  have hndq : NodupIds ([] ++ queuedRows L t0) := by
    rw [List.nil_append]
    unfold NodupIds
    rw [queuedRows_mapId]
    exact hnd
  have h := claimSeq_spec L t0 [] t1 (by simp) hndq
  rw [List.nil_append] at h
  exact h

/-- First params object of the C4 witness. -/
def c4Pa : Json := Json.arr [Json.num 1, Json.str "x"]

/-- Second params object of the C4 witness. -/
def c4Pb : Json := Json.num (-2)

/-- Witness for C4: enqueue `"a"` at `t = 0` and `"b"` at `t = 1`, then
claim three times: `"a"`, then `"b"`, then the null sentinel. -/
theorem C4_claims_in_insertion_order_witness :
    (claimSeq 3 10
      [{ id := "a", params := jsonStringify c4Pa, status := "queued",
         createdAt := 0, processedAt := none, error := none },
       { id := "b", params := jsonStringify c4Pb, status := "queued",
         createdAt := 1, processedAt := none, error := none }]).1
      = [Except.ok (some ("a", c4Pa)), Except.ok (some ("b", c4Pb)), Except.ok none] :=
  C4_claims_in_insertion_order [("a", c4Pa), ("b", c4Pb)] 0 10
    [{ id := "a", params := jsonStringify c4Pa, status := "queued",
       createdAt := 0, processedAt := none, error := none },
     { id := "b", params := jsonStringify c4Pb, status := "queued",
       createdAt := 1, processedAt := none, error := none }]
    (by decide) rfl

/-- Shape of every finished claim: each worker that has resolved did so
with the null sentinel, with some job, or with the error that escapes the
`catch` block's out-of-transaction `ROLLBACK` (the `SQLITE_BUSY` loser at
`BEGIN IMMEDIATE`, or a post-COMMIT `JSON.parse` failure). -/
def DoneShapes (s : Sys) : Prop :=
  ∀ (k : Nat) (res : Except String (Option (String × Json))),
    s.procs[k]? = some (Phase.done res) →
    res = Except.ok none ∨ (∃ id p, res = Except.ok (some (id, p))) ∨
      res = Except.error rollbackNoTxnMsg

theorem doneShapes_step {s s2 : Sys} (hd : DoneShapes s) (hstep : StepC s s2) :
    DoneShapes s2 := by
  cases hstep with
  | begin_ok i s h hl =>
    intro k res hk
    rw [procs_set_get h _ k] at hk
    by_cases hki : k = i
    · rw [if_pos hki] at hk
      exact absurd hk (by simp)
    · rw [if_neg hki] at hk
      exact hd k res hk
  | begin_busy i s h hl =>
    intro k res hk
    rw [procs_set_get h _ k] at hk
    by_cases hki : k = i
    · rw [if_pos hki] at hk
      have hres : Except.error rollbackNoTxnMsg = res :=
        Phase.done.inj (Option.some.inj hk)
      exact Or.inr (Or.inr hres.symm)
    · rw [if_neg hki] at hk
      exact hd k res hk
  | select_hit i job s h hfound =>
    intro k res hk
    rw [procs_set_get h _ k] at hk
    by_cases hki : k = i
    · rw [if_pos hki] at hk
      exact absurd hk (by simp)
    · rw [if_neg hki] at hk
      exact hd k res hk
  | select_miss i s h hfound =>
    intro k res hk
    rw [procs_set_get h _ k] at hk
    by_cases hki : k = i
    · rw [if_pos hki] at hk
      exact absurd hk (by simp)
    · rw [if_neg hki] at hk
      exact hd k res hk
  | update_run i job now s h =>
    intro k res hk
    rw [procs_set_get h _ k] at hk
    by_cases hki : k = i
    · rw [if_pos hki] at hk
      exact absurd hk (by simp)
    · rw [if_neg hki] at hk
      exact hd k res hk
  | commit_empty i s h =>
    intro k res hk
    rw [procs_set_get h _ k] at hk
    by_cases hki : k = i
    · rw [if_pos hki] at hk
      have hres : Except.ok none = res := Phase.done.inj (Option.some.inj hk)
      exact Or.inl hres.symm
    · rw [if_neg hki] at hk
      exact hd k res hk
  | commit_run i job s h =>
    intro k res hk
    rw [procs_set_get h _ k] at hk
    by_cases hki : k = i
    · rw [if_pos hki] at hk
      have hres : claimResult job = res := Phase.done.inj (Option.some.inj hk)
      unfold claimResult at hres
      cases hp : jsonParse job.params with
      | some p =>
        rw [hp] at hres
        exact Or.inr (Or.inl ⟨job.id, p, hres.symm⟩)
      | none =>
        rw [hp] at hres
        exact Or.inr (Or.inr hres.symm)
    · rw [if_neg hki] at hk
      exact hd k res hk

/-- The finished-claim classification holds along any interleaving. -/
theorem doneShapes_steps {s1 s2 : Sys} (h : Relation.ReflTransGen StepC s1 s2)
    (hd : DoneShapes s1) : DoneShapes s2 := by
  induction h with
  | refl => exact hd
  | tail _ hstep ih => exact doneShapes_step ih hstep

/-- The single queued row of the C1 schedules (params text `"1"`). -/
def c1Row : JobRow :=
  { id := "a", params := "1", status := "queued",
    createdAt := 0, processedAt := none, error := none }

/-- `c1Row` after worker 0 marked it running at `t = 5`. -/
def c1RowRun : JobRow :=
  { id := "a", params := "1", status := "running",
    createdAt := 0, processedAt := some 5, error := none }

/-- Initial state of the C1 schedules: one queued job, two workers about
to call `getNextJob`, write lock free. -/
def c1Start : Sys :=
  { rows := [c1Row], lock := none, procs := List.replicate 2 Phase.ready }

/-- Final state of the C1 busy-loser schedule: worker 0 returned the job;
worker 1 ended with the error that escaped its `catch` block's
out-of-transaction `ROLLBACK` after `BEGIN IMMEDIATE` failed `SQLITE_BUSY`. -/
def c1Final : Sys :=
  { rows := [c1RowRun], lock := none,
    procs := [Phase.done (Except.ok (some ("a", Json.num 1))),
              Phase.done (Except.error rollbackNoTxnMsg)] }

/-- A concrete two-worker interleaving: worker 0 acquires the write lock
with `BEGIN IMMEDIATE`; worker 1 then attempts its own `BEGIN IMMEDIATE`,
gets `SQLITE_BUSY`, and its `catch` block's `ROLLBACK` — run with no
transaction active — rejects, ending worker 1 with that escaped error;
worker 0 selects, updates and commits, returning the job. -/
theorem c1_busy_loser_chain : Relation.ReflTransGen StepC c1Start c1Final := by
  have hs1 : StepC c1Start
      { rows := [c1Row], lock := some 0, procs := [Phase.inTxn, Phase.ready] } :=
    StepC.begin_ok 0 _ rfl rfl
  have hs2 : StepC
      { rows := [c1Row], lock := some 0, procs := [Phase.inTxn, Phase.ready] }
      { rows := [c1Row], lock := some 0,
        procs := [Phase.inTxn, Phase.done (Except.error rollbackNoTxnMsg)] } :=
    StepC.begin_busy 1 _ rfl (by simp)
  have hs3 : StepC
      { rows := [c1Row], lock := some 0,
        procs := [Phase.inTxn, Phase.done (Except.error rollbackNoTxnMsg)] }
      { rows := [c1Row], lock := some 0,
        procs := [Phase.selected c1Row, Phase.done (Except.error rollbackNoTxnMsg)] } :=
    StepC.select_hit 0 c1Row _ rfl rfl
  have hs4 : StepC
      { rows := [c1Row], lock := some 0,
        procs := [Phase.selected c1Row, Phase.done (Except.error rollbackNoTxnMsg)] }
      { rows := [c1RowRun], lock := some 0,
        procs := [Phase.updated c1Row, Phase.done (Except.error rollbackNoTxnMsg)] } :=
    StepC.update_run 0 c1Row 5 _ rfl
  have hs5 : StepC
      { rows := [c1RowRun], lock := some 0,
        procs := [Phase.updated c1Row, Phase.done (Except.error rollbackNoTxnMsg)] }
      c1Final :=
    StepC.commit_run 0 c1Row _ rfl
  exact Relation.ReflTransGen.tail (Relation.ReflTransGen.tail
    (Relation.ReflTransGen.tail (Relation.ReflTransGen.tail
      (Relation.ReflTransGen.tail Relation.ReflTransGen.refl hs1) hs2) hs3) hs4) hs5

/-- C1 counterexample: the claim says every concurrent `claimNext` call
other than the winner returns the "no job available" sentinel or a
different job.  In this reachable two-worker interleaving, worker 0
returns the job while worker 1 — the `SQLITE_BUSY` loser at
`BEGIN IMMEDIATE` — ends with the error that escapes the `catch` block's
out-of-transaction `ROLLBACK`: a rejected call, which is neither the
sentinel (`ok none`) nor any job (`ok (some _)`). -/
theorem C1_busy_loser_counterexample :
    Relation.ReflTransGen StepC c1Start c1Final ∧
    c1Final.procs[1]? = some (Phase.done (Except.error rollbackNoTxnMsg)) ∧
    (Except.error rollbackNoTxnMsg : Except String (Option (String × Json)))
      ≠ Except.ok none ∧
    c1Final.procs[0]? = some (Phase.done (Except.ok (some ("a", Json.num 1)))) :=
  ⟨c1_busy_loser_chain, rfl, by simp, rfl⟩

/-- C1 (amended): over any interleaved execution of any number of
concurrent `getNextJob` callers, (i) a given job is observed, transitioned
to `running` and returned by at most one caller — two workers that both
finish with `ok (some (id, _))` for the same id are the same worker, so no
job is ever returned to two callers and concurrent winners hold distinct
jobs — and (ii) every other finished call resolves to the "no job
available" sentinel, to a different job, or to the error escaping the
`catch` block's out-of-transaction `ROLLBACK` (the `SQLITE_BUSY` loser at
`BEGIN IMMEDIATE`, or a post-COMMIT parse failure) — not always the
sentinel, as the counterexample shows. -/
theorem C1_concurrent_claims_amended (rows0 : List JobRow) (n : Nat) (s : Sys)
    (hnd : NodupIds rows0)
    (hreach : Relation.ReflTransGen StepC
      { rows := rows0, lock := none, procs := List.replicate n Phase.ready } s) :
    (∀ (id : String) (i j : Nat) (phi phj : Phase),
      s.procs[i]? = some phi → s.procs[j]? = some phj →
      returnsJob id phi → returnsJob id phj → i = j) ∧
    (∀ (k : Nat) (res : Except String (Option (String × Json))),
      s.procs[k]? = some (Phase.done res) →
      res = Except.ok none ∨ (∃ id p, res = Except.ok (some (id, p))) ∨
        res = Except.error rollbackNoTxnMsg) := by
  constructor
  · intro id i j phi phj hi hj hri hrj
    have hinv := sysInv_steps hreach (sysInv_init rows0 n hnd)
    obtain ⟨p1, hp1⟩ := hri
    obtain ⟨p2, hp2⟩ := hrj
    subst hp1
    subst hp2
    exact hinv.2.2.2.2.2 id i j _ _ hi hj rfl rfl
  · have hd0 : DoneShapes
        { rows := rows0, lock := none, procs := List.replicate n Phase.ready } := by
      intro k res hk
      rw [List.getElem?_replicate] at hk
      by_cases hkn : k < n
      · rw [if_pos hkn] at hk
        exact absurd hk (by simp)
      · rw [if_neg hkn] at hk
        exact absurd hk (by simp)
    exact doneShapes_steps hreach hd0

/-- Witness for C1 (amended) on the busy-loser schedule: the at-most-once
part applied at worker 0 (who returned the job), and the classification
part applied at worker 1 (whose call resolved to the escaped rollback
error). -/
theorem C1_concurrent_claims_amended_witness :
    NodupIds [c1Row] ∧ (0 : Nat) = 0 ∧
    ((Except.error rollbackNoTxnMsg : Except String (Option (String × Json)))
        = Except.ok none ∨
      (∃ id p, (Except.error rollbackNoTxnMsg : Except String (Option (String × Json)))
        = Except.ok (some (id, p))) ∨
      (Except.error rollbackNoTxnMsg : Except String (Option (String × Json)))
        = Except.error rollbackNoTxnMsg) := by
  have h := C1_concurrent_claims_amended [c1Row] 2 c1Final
    (by unfold NodupIds; decide) c1_busy_loser_chain
  refine ⟨by unfold NodupIds; decide, ?_, ?_⟩
  · exact h.1 "a" 0 0 _ _ rfl rfl ⟨Json.num 1, rfl⟩ ⟨Json.num 1, rfl⟩
  · exact h.2 1 (Except.error rollbackNoTxnMsg) rfl
